import Mathlib

/-! Instant-runoff tally engine (`src/backend/utils/instantRunoff.js`).

A shallow embedding of `calculateInstantRunoff(ballots, pollOptions)` and the
properties of it that the specification states.

Modelling conventions (each one is local to the definition that uses it):

* identifiers and texts are JavaScript strings (`String`); the database layer
  stores UUID strings, so `===` on identifiers is string equality;
* an absent or `undefined` property is `none`; JavaScript truthiness of a
  string is "present and non-empty";
* the dictionary `tallies`, keyed by option identifier, is an association list
  in insertion order with unique keys (`objSet` overwrites in place,
  `List.lookup` reads). Identifiers are the database's UUID strings, which are
  neither array indices nor names of `Object.prototype`, so a JavaScript object
  stores them as ordinary keys in insertion order; the only enumeration of
  `tallies` is the majority search, and `majority_unique` shows that its answer
  does not depend on the order;
* the dictionary `formattedTallies`, keyed by option text, takes any string the
  poll's creator typed as a key, and is modelled as the JavaScript object it is
  (`textSet`, `textGet0`): the entries are listed in the object's own
  enumeration order (array-index keys ascending, then the other keys in
  insertion order), an assignment to the key `__proto__` stores nothing, and a
  read of a key the object does not own falls through to `Object.prototype`;
* ranks are integers, and `Array.prototype.sort` is stable, so the sorted copy
  of a ranking list is its stable sort by ascending rank;
* vote counts are natural numbers; the comparison `count > totalVotes / 2`
  (a real-number division in JavaScript) is written `totalVotes < 2 * count`;
* the `while` loop is a function with a fuel argument which answers `none`
  when the fuel runs out; `calculateInstantRunoff` supplies `pollOptions.length`
  as fuel and the theorems show that this is always enough.
-/

namespace InstantRunoff

/-! ## Data model -/

/-- An element of `pollOptions`: `{ id, optionText, text }`. -/
structure PollOption where
  id : String
  optionText : Option String
  text : Option String
deriving DecidableEq

/-- An element of `ballot.rankings`: `{ pollOptionId, rank }`. -/
structure Ranking where
  pollOptionId : String
  rank : Int
deriving DecidableEq

/-- An element of `ballots`: `{ id, rankings }`; `rankings` may be missing. -/
structure Ballot where
  id : String
  rankings : Option (List Ranking)
deriving DecidableEq

/-- One entry of `rounds`: `{ roundNumber, tallies, winner?, finalVoteCount?, eliminated? }`. -/
structure Round where
  roundNumber : Nat
  tallies : List (String × Nat)
  winner : Option String
  finalVoteCount : Option Nat
  eliminated : Option (List String)
deriving DecidableEq

/-- What the `finalVoteCount` slot of a winner holds: a number, `undefined`, or,
when the read of a text-keyed dictionary falls through to `Object.prototype`, the
member of that prototype reached under `key` (for `__proto__` the prototype
object itself). -/
inductive VoteCount where
  | number (n : Nat)
  | undefined
  | inherited (key : String)
deriving DecidableEq

/-- The `winner` object of the result: `{ id, optionText, finalVoteCount }`. -/
structure Winner where
  id : String
  optionText : Option String
  finalVoteCount : VoteCount
deriving DecidableEq

/-- The value returned by `calculateInstantRunoff`: `{ winner, rounds, eliminated }`. -/
structure Result where
  winner : Option Winner
  rounds : List Round
  eliminated : List String
deriving DecidableEq

/-! ## JavaScript helpers -/

/-- JavaScript truthiness of a possibly missing string. -/
def truthy : Option String → Bool
  | some s => s != ""
  | none => false

/-- The expression `opt.optionText || opt.text || opt.id`: the key under which an
option appears in a round's `tallies` and in `eliminated`. -/
def displayText (o : PollOption) : String :=
  match o.optionText with
  | some s => if s != "" then s else
    match o.text with
    | some t => if t != "" then t else o.id
    | none => o.id
  | none =>
    match o.text with
    | some t => if t != "" then t else o.id
    | none => o.id

/-- The expression `winner.optionText || winner.text`. -/
def winnerText (o : PollOption) : Option String :=
  if truthy o.optionText then o.optionText else o.text

/-- Assignment `tallies[k] = v` on the identifier-keyed dictionary: overwrite in
place or append. -/
def objSet : List (String × Nat) → String → Nat → List (String × Nat)
  | [], k, v => [(k, v)]
  | (k', v') :: rest, k, v =>
    if k' = k then (k', v) :: rest else (k', v') :: objSet rest k v

/-- The expression `tallies[k] || 0` on the identifier-keyed dictionary. -/
def objGet0 (t : List (String × Nat)) (k : String) : Nat :=
  (t.lookup k).getD 0

/-- A value read from the identifier-keyed dictionary, as a `finalVoteCount`. -/
def VoteCount.ofLookup : Option Nat → VoteCount
  | some n => VoteCount.number n
  | none => VoteCount.undefined

/-- The property names of `Object.prototype`, which an object literal inherits. -/
def prototypeKeys : List String :=
  ["constructor", "__defineGetter__", "__defineSetter__", "hasOwnProperty",
   "__lookupGetter__", "__lookupSetter__", "isPrototypeOf", "propertyIsEnumerable",
   "toString", "valueOf", "__proto__", "toLocaleString"]

/-- The value of a list of decimal digits, read after `acc`; `none` when a
character is not a digit. -/
def digitsValue : List Char → Nat → Option Nat
  | [], acc => some acc
  | c :: cs, acc =>
    if c.isDigit then digitsValue cs (10 * acc + (c.toNat - 48)) else none

/-- The number a property name stands for when it is an array index: a decimal
numeral without leading zero whose value is at most `2^32 - 2`. A JavaScript
object enumerates such keys first, in ascending numeric order. -/
def arrayIndex? (k : String) : Option Nat :=
  match k.data with
  | [] => none
  | c :: cs =>
    if c = '0' ∧ cs ≠ [] then none
    else
      match digitsValue (c :: cs) 0 with
      | some n => if n < 4294967295 then some n else none
      | none => none

/-- A new array-index key `k` (standing for `n`) takes its place among the
entries of an object: after the array-index keys below it and before
everything else. -/
def insertIndex : List (String × Nat) → Nat → String → Nat → List (String × Nat)
  | [], _, k, v => [(k, v)]
  | (k', v') :: rest, n, k, v =>
    match arrayIndex? k' with
    | some n' =>
      if n' < n then (k', v') :: insertIndex rest n k v else (k, v) :: (k', v') :: rest
    | none => (k, v) :: (k', v') :: rest

/-- Assignment `obj[k] = v` of a number on an object literal keyed by arbitrary
strings, the entries kept in the object's enumeration order: the setter of
`__proto__` ignores a number, an existing key keeps its place, a new array-index
key goes among the array-index keys, any other new key goes last. -/
def textSet (t : List (String × Nat)) (k : String) (v : Nat) : List (String × Nat) :=
  if k = "__proto__" then t
  else if (t.lookup k).isSome then t.map (fun kv => if kv.1 = k then (kv.1, v) else kv)
  else
    match arrayIndex? k with
    | some n => insertIndex t n k v
    | none => t ++ [(k, v)]

/-- The expression `obj[k] || 0` on such an object: `__proto__` reads the
prototype object, an own key reads its number, a key the object does not own
reads the member of `Object.prototype` of that name when there is one, and `0`
(from `undefined || 0`) otherwise. -/
def textGet0 (t : List (String × Nat)) (k : String) : VoteCount :=
  if k = "__proto__" then VoteCount.inherited k
  else
    match t.lookup k with
    | some n => VoteCount.number n
    | none => if k ∈ prototypeKeys then VoteCount.inherited k else VoteCount.number 0

/-- The copy `[...ballot.rankings].sort((a, b) => a.rank - b.rank)`: a stable sort
by ascending rank. -/
def sortedRankings (rs : List Ranking) : List Ranking :=
  rs.insertionSort (fun a b => a.rank ≤ b.rank)

/-! ## The single-option count (lines 21-29 and 158-165) -/

/-- The test applied to each ballot by the direct count: the ballot has rankings,
and the first entry of its sorted copy references `id`. -/
def firstChoiceIs (id : String) (b : Ballot) : Bool :=
  match b.rankings with
  | none => false
  | some rs =>
    if 0 < rs.length then
      match (sortedRankings rs).head? with
      | some r => r.pollOptionId == id
      | none => false
    else false

/-- The `forEach` that increments `voteCount` for each ballot passing the test. -/
def directCount (ballots : List Ballot) (id : String) : Nat :=
  ballots.foldl (fun c b => if firstChoiceIs id b then c + 1 else c) 0

/-! ## One round of the main loop -/

/-- The option identifier a ballot votes for in a round: the first entry of the
sorted rankings whose option is still active (lines 62-70). -/
def firstActive (active : List PollOption) (b : Ballot) : Option String :=
  match b.rankings with
  | none => none
  | some rs =>
    if 0 < rs.length then
      ((sortedRankings rs).find?
        (fun r => (active.find? (fun o => o.id == r.pollOptionId)).isSome)).map
        (fun r => r.pollOptionId)
    else none

/-- The dictionary `tallies` after `tallies[option.id] = 0` for every active
option (lines 55-58). -/
def initTallies (active : List PollOption) : List (String × Nat) :=
  active.foldl (fun t o => objSet t o.id 0) []

/-- The body of the counting `forEach` for one ballot (lines 62-71):
`tallies[id] = (tallies[id] || 0) + 1` for the identifier the ballot votes for. -/
def castVote (active : List PollOption) (t : List (String × Nat)) (b : Ballot) :
    List (String × Nat) :=
  match firstActive active b with
  | some k => objSet t k (objGet0 t k + 1)
  | none => t

/-- The dictionary `tallies` after the counting pass (lines 61-72). -/
def countVotes (ballots : List Ballot) (active : List PollOption) : List (String × Nat) :=
  ballots.foldl (castVote active) (initTallies active)

/-- The sum `Object.values(tallies).reduce(...)` (line 74). -/
def totalVotes (t : List (String × Nat)) : Nat :=
  (t.map Prod.snd).foldl (fun sum count => sum + count) 0

/-- The majority search (lines 78-84): the first key whose count exceeds half of
the total, looked up in `pollOptions`. -/
def majorityWinner (pollOptions : List PollOption) (t : List (String × Nat)) :
    Option PollOption :=
  match t.find? (fun kv => totalVotes t < 2 * kv.2) with
  | some kv => pollOptions.find? (fun o => o.id == kv.1)
  | none => none

/-- The dictionary `formattedTallies`, keyed by display text (lines 87-91). -/
def formatTallies (active : List PollOption) (t : List (String × Nat)) :
    List (String × Nat) :=
  active.foldl (fun f o => textSet f (displayText o) (objGet0 t o.id)) []

/-- The value of `Math.min(...xs)` on a non-empty list of counts. On the empty
list JavaScript answers `Infinity`; the loop guard keeps the list non-empty and
the model answers `0` there. -/
def minVotes : List Nat → Nat
  | [] => 0
  | x :: xs => xs.foldl min x

/-- The array `eliminatedOptions` after the tie handling (lines 114-129): the
active options whose count is minimal, cut down by `splice(1)` to its first
element when it holds every active option. -/
def eliminatedOptions (active : List PollOption) (t : List (String × Nat)) :
    List PollOption :=
  let m := minVotes (active.map (fun o => objGet0 t o.id))
  let elim := active.filter (fun o => objGet0 t o.id == m)
  if elim.length = active.length ∧ 1 < active.length then elim.take 1 else elim

/-- The filter that removes the eliminated options from the active list
(lines 136-138). -/
def removeEliminated (active elim : List PollOption) : List PollOption :=
  active.filter (fun o => !(elim.find? (fun eo => eo.id == o.id)).isSome)

/-- The expression `rounds.flatMap(r => r.eliminated || [])`. -/
def flattenEliminated (rounds : List Round) : List String :=
  rounds.flatMap (fun r => r.eliminated.getD [])

/-- The round object pushed when a majority winner is found (lines 93-101). -/
def winnerRound (roundNumber : Nat) (active : List PollOption) (t : List (String × Nat))
    (w : PollOption) : Round :=
  { roundNumber := roundNumber
    tallies := formatTallies active t
    winner := some (displayText w)
    finalVoteCount := t.lookup w.id
    eliminated := none }

/-- The round object pushed by an elimination round (lines 93-96 and 131-133). -/
def eliminationRound (roundNumber : Nat) (active : List PollOption) (t : List (String × Nat)) :
    Round :=
  { roundNumber := roundNumber
    tallies := formatTallies active t
    winner := none
    finalVoteCount := none
    eliminated := some ((eliminatedOptions active t).map displayText) }

/-! ## After the loop, the loop, and the entry point -/

/-- The result returned from inside the loop when `w` has a majority
(lines 98-110): the winner round is pushed and the eliminations so far are
flattened. -/
def winnerResult (rounds : List Round) (roundNumber : Nat) (active : List PollOption)
    (t : List (String × Nat)) (w : PollOption) : Result :=
  { winner := some
      { id := w.id, optionText := winnerText w
        finalVoteCount := VoteCount.ofLookup (t.lookup w.id) }
    rounds := rounds ++ [winnerRound roundNumber active t w]
    eliminated := flattenEliminated (rounds ++ [winnerRound roundNumber active t w]) }

/-- The code after the loop (lines 148-184). -/
def finish (ballots : List Ballot) (active : List PollOption) (rounds : List Round) : Result :=
  match active with
  | [winner] =>
    let winnerVotes :=
      match rounds.getLast? with
      | some lastRound => textGet0 lastRound.tallies (displayText winner)
      | none => VoteCount.number (directCount ballots winner.id)
    { winner := some
        { id := winner.id, optionText := winnerText winner, finalVoteCount := winnerVotes }
      rounds := rounds
      eliminated := flattenEliminated rounds }
  | _ => { winner := none, rounds := rounds, eliminated := flattenEliminated rounds }

/-- The `while (activeOptions.length > 1)` loop (lines 53-146), with fuel. -/
def loop (ballots : List Ballot) (pollOptions : List PollOption) :
    Nat → List PollOption → List Round → Nat → Option Result
  | 0, active, rounds, _ =>
    if 1 < active.length then none else some (finish ballots active rounds)
  | fuel + 1, active, rounds, roundNumber =>
    if 1 < active.length then
      let t := countVotes ballots active
      match majorityWinner pollOptions t with
      | some w => some (winnerResult rounds roundNumber active t w)
      | none =>
        let rounds := rounds ++ [eliminationRound roundNumber active t]
        let active := removeEliminated active (eliminatedOptions active t)
        if active.length = 0 then some (finish ballots active rounds)
        else loop ballots pollOptions fuel active rounds (roundNumber + 1)
    else some (finish ballots active rounds)

/-- The function `calculateInstantRunoff(ballots, pollOptions)`. -/
def calculateInstantRunoff (ballots : List Ballot) (pollOptions : List PollOption) :
    Option Result :=
  if pollOptions.length = 1 then
    match pollOptions.head? with
    | some winner =>
      some
        { winner := some
            { id := winner.id, optionText := winnerText winner
              finalVoteCount := VoteCount.number (directCount ballots winner.id) }
          rounds := []
          eliminated := [] }
    | none => none
  else if pollOptions.length = 0 then
    some { winner := none, rounds := [], eliminated := [] }
  else loop ballots pollOptions pollOptions.length pollOptions [] 1

/-! ## Test data -/

/-- An option as the API layer builds it: `optionText` and `text` both set. -/
def mkOption (id text : String) : PollOption :=
  { id := id, optionText := some text, text := some text }

/-- A ballot ranking the given option identifiers in order, ranks `1, 2, ...`. -/
def mkBallot (id : String) (choices : List String) : Ballot :=
  { id := id
    rankings := some (choices.enum.map (fun p => { pollOptionId := p.2, rank := (p.1 : Int) + 1 })) }

def optA : PollOption := mkOption "a" "A"
def optB : PollOption := mkOption "b" "B"
def optC : PollOption := mkOption "c" "C"

/-- Three ballots, one first choice for each of three options: a full tie. -/
def tieBallots : List Ballot :=
  [mkBallot "1" ["a"], mkBallot "2" ["b"], mkBallot "3" ["c"]]

/-- The ballots of the specification's immediate-majority scenario: 3x[A], 1x[B]. -/
def majorityBallots : List Ballot :=
  [mkBallot "1" ["a"], mkBallot "2" ["a"], mkBallot "3" ["a"], mkBallot "4" ["b"]]

/-- The ballots of the specification's three-option scenario. -/
def scenarioBallots : List Ballot :=
  [mkBallot "1" ["a", "b", "c"], mkBallot "2" ["a", "b", "c"], mkBallot "3" ["a", "b", "c"],
   mkBallot "4" ["b", "a", "c"], mkBallot "5" ["b", "a", "c"], mkBallot "6" ["c", "b", "a"]]

/-- Two options with distinct identifiers and the same text. -/
def optX : PollOption := mkOption "x" "T"
def optY : PollOption := mkOption "y" "T"

/-- Two first choices for `x` and one for `y`. -/
def sameTextBallots : List Ballot :=
  [mkBallot "1" ["x"], mkBallot "2" ["x"], mkBallot "3" ["y"]]

/-- One ballot that ranks an unknown option first and the option `a` second. -/
def unknownFirstBallots : List Ballot :=
  [mkBallot "1" ["x", "a"]]

/-- One ballot ranking `a`, `b`, `c` with ranks 1, 2, 3. -/
def plainRanksBallots : List Ballot :=
  [{ id := "1"
     rankings := some [{ pollOptionId := "a", rank := 1 }, { pollOptionId := "b", rank := 2 },
       { pollOptionId := "c", rank := 3 }] }]

/-- The same ballot with ranks 10, 20, 35 and its rankings listed in another order. -/
def spreadRanksBallots : List Ballot :=
  [{ id := "1"
     rankings := some [{ pollOptionId := "c", rank := 35 }, { pollOptionId := "a", rank := 10 },
       { pollOptionId := "b", rank := 20 }] }]

/-- The map 1, 2, 3 to 10, 20, 35. -/
def spreadRanks (x : Int) : Int :=
  if x = 1 then 10 else if x = 2 then 20 else 35

/-- Two options whose texts are `__proto__` and `Q`. -/
def optP : PollOption := mkOption "p" "__proto__"
def optQ : PollOption := mkOption "q" "Q"

/-- Two first choices for `p` and one for `q`. -/
def protoMajorityBallots : List Ballot :=
  [mkBallot "1" ["p"], mkBallot "2" ["p"], mkBallot "3" ["q"]]

/-- One first choice for `q` and one for `p`. -/
def protoTieBallots : List Ballot :=
  [mkBallot "1" ["q"], mkBallot "2" ["p"]]

/-- Two first choices for `q` and two for `p`. -/
def protoDoubleTieBallots : List Ballot :=
  [mkBallot "1" ["q"], mkBallot "2" ["q"], mkBallot "3" ["p"], mkBallot "4" ["p"]]

/-! ## Specification-side counts -/

/-- The number of ballots whose vote in a round with the given active list goes
to the option identifier `k`. -/
def votesFor (ballots : List Ballot) (active : List PollOption) (k : String) : Nat :=
  ballots.countP (fun b => firstActive active b == some k)

/-- The number of ballots that cast a vote in a round with the given active list. -/
def votersCount (ballots : List Ballot) (active : List PollOption) : Nat :=
  ballots.countP (fun b => (firstActive active b).isSome)

/-- The scan that keeps the entry with the smaller rank, the earlier one on
equal ranks. -/
def pickSmaller (best : Option Ranking) (r : Ranking) : Option Ranking :=
  match best with
  | none => some r
  | some b => if r.rank < b.rank then some r else some b

/-- The entry of a ranking list with the smallest rank (the earliest listed one
when several entries share it); `none` on the empty list. -/
def smallestRankEntry (rs : List Ranking) : Option Ranking :=
  rs.foldl pickSmaller none

/-- The ballot has a non-empty ranking list whose entry with the smallest rank
references the option identifier `id`. -/
def ranksFirst (id : String) (b : Ballot) : Bool :=
  match b.rankings with
  | none => false
  | some rs =>
    match smallestRankEntry rs with
    | some r => r.pollOptionId == id
    | none => false

/-- The ballot has at least one ranking whose `pollOptionId` is the identifier of
one of the given options. -/
def ranksSomeOption (options : List PollOption) (b : Ballot) : Bool :=
  match b.rankings with
  | none => false
  | some rs => rs.any (fun r => options.any (fun o => o.id == r.pollOptionId))

/-! ## Statements about results -/

/-- The statement made about a round `r` of `res` that records a winner: it is
the tally of a sublist `active` of the options, the winner `w` is an input
option, the recorded count is the number of ballots voting for `w`, the total of
the round is the number of voting ballots, the count is more than half of it,
and the result's winner carries the same count. -/
def MajorityRound (ballots : List Ballot) (pollOptions : List PollOption) (res : Result)
    (r : Round) : Prop :=
  ∃ active w, active.Sublist pollOptions ∧ w ∈ pollOptions ∧
    r.winner = some (displayText w) ∧
    r.tallies = formatTallies active (countVotes ballots active) ∧
    r.finalVoteCount = some (votesFor ballots active w.id) ∧
    totalVotes (countVotes ballots active) = votersCount ballots active ∧
    votersCount ballots active < 2 * votesFor ballots active w.id ∧
    res.winner = some
      { id := w.id, optionText := winnerText w
        finalVoteCount := VoteCount.number (votesFor ballots active w.id) }

/-- The state of the loop with respect to eliminations: the active list is a
sublist of the options, no text has been eliminated twice, and every eliminated
text is the text of an option that is no longer active. -/
def ElimInv (pollOptions active : List PollOption) (rounds : List Round) : Prop :=
  active.Sublist pollOptions ∧ (flattenEliminated rounds).Nodup ∧
  ∀ x ∈ flattenEliminated rounds, x ∈ pollOptions.map displayText ∧ x ∉ active.map displayText

/-- The statement made about eliminations in a result. -/
def ElimGood (pollOptions : List PollOption) (res : Result) : Prop :=
  res.eliminated = flattenEliminated res.rounds ∧ res.eliminated.Nodup ∧
  (∀ x ∈ res.eliminated, x ∈ pollOptions.map displayText) ∧
  ∀ w, res.winner = some w →
    ∃ o ∈ pollOptions, o.id = w.id ∧ w.optionText = winnerText o ∧
      displayText o ∉ res.eliminated

/-- The round `r` is the one recorded by an elimination round on `active`: a
sublist of the options with two or more entries and no majority winner. -/
def EliminationOf (ballots : List Ballot) (pollOptions active : List PollOption)
    (r : Round) : Prop :=
  active.Sublist pollOptions ∧ 1 < active.length ∧
  majorityWinner pollOptions (countVotes ballots active) = none ∧
  r = eliminationRound r.roundNumber active (countVotes ballots active)

/-- The statement made about a last round `last` of `res` after which one option
`o` is left: `last` is an elimination round on `active`, the options that stay
active after it are `[o]`, and `o` is the result's winner with the count that
`last.tallies` holds for its display text. -/
def LastStanding (ballots : List Ballot) (pollOptions : List PollOption) (res : Result)
    (last : Round) : Prop :=
  ∃ active o, EliminationOf ballots pollOptions active last ∧
    removeEliminated active (eliminatedOptions active (countVotes ballots active)) = [o] ∧
    res.winner = some
      { id := o.id, optionText := winnerText o
        finalVoteCount := textGet0 last.tallies (displayText o) }

/-- The state of the loop with respect to its last recorded round: either two or
more options are active, or the last round recorded is an elimination round
whose survivors are the active options. -/
def LastInv (ballots : List Ballot) (pollOptions active : List PollOption)
    (rounds : List Round) : Prop :=
  active.Sublist pollOptions ∧
  (1 < active.length ∨
    ∃ prev activePrev r, rounds = prev ++ [r] ∧
      EliminationOf ballots pollOptions activePrev r ∧
      active = removeEliminated activePrev
        (eliminatedOptions activePrev (countVotes ballots activePrev)))

/-- The option identifiers a ballot ranks, in ascending rank order: the
`pollOptionId`s of the sorted copy of its rankings (empty when `rankings` is
missing). The engine reads a ballot only through this list. -/
def sortedIds (b : Ballot) : List String :=
  match b.rankings with
  | none => []
  | some rs => (sortedRankings rs).map (fun r => r.pollOptionId)

/-- The ranking `r` with its rank replaced by `g r.rank`. -/
def reRank (g : Int → Int) (r : Ranking) : Ranking :=
  { pollOptionId := r.pollOptionId, rank := g r.rank }

/-- The ballot `b'` is `b` with its ranks replaced through a map that is strictly
increasing on the ranks of `b` and with its rankings listed in any order; the
ranks of `b` are pairwise distinct. (The ballot identifier, which the engine
never reads, is left free.) -/
def SameRankOrder (b b' : Ballot) : Prop :=
  match b.rankings, b'.rankings with
  | none, none => True
  | some rs, some rs' =>
    (rs.map (fun r => r.rank)).Nodup ∧
    ∃ g : Int → Int, (∀ x ∈ rs, ∀ y ∈ rs, x.rank < y.rank → g x.rank < g y.rank) ∧
      rs'.Perm (rs.map (reRank g))
  | _, _ => False

/-- The ranking references one of the given options. -/
def knownOption (options : List PollOption) (r : Ranking) : Bool :=
  options.any (fun o => o.id == r.pollOptionId)

/-- The ballot without the rankings that reference none of the given options. -/
def stripUnknown (options : List PollOption) (b : Ballot) : Ballot :=
  { id := b.id, rankings := b.rankings.map (fun rs => rs.filter (knownOption options)) }

/-! ## Dictionaries -/

theorem lookup_objSet_self (t : List (String × Nat)) (k : String) (v : Nat) :
    (objSet t k v).lookup k = some v := by
  induction t with
  | nil => simp [objSet, List.lookup]
  | cons kv rest ih =>
    obtain ⟨k', v'⟩ := kv
    by_cases h : k' = k
    · simp [objSet, h, List.lookup]
    · have h' : (k == k') = false := by simpa using fun e => h e.symm
      simp [objSet, h, List.lookup, h', ih]

theorem lookup_objSet_ne (t : List (String × Nat)) (k k' : String) (v : Nat) (hne : k' ≠ k) :
    (objSet t k v).lookup k' = t.lookup k' := by
  induction t with
  | nil =>
    have h' : (k' == k) = false := by simpa using hne
    simp [objSet, List.lookup, h']
  | cons kv rest ih =>
    obtain ⟨k1, v1⟩ := kv
    by_cases h : k1 = k
    · subst h
      have h' : (k' == k1) = false := by simpa using hne
      simp [objSet, List.lookup, h']
    · simp only [objSet, h, if_false, List.lookup]
      rw [ih]

theorem keys_objSet_of_mem (t : List (String × Nat)) (k : String) (v : Nat)
    (h : k ∈ t.map Prod.fst) : (objSet t k v).map Prod.fst = t.map Prod.fst := by
  induction t with
  | nil => simp at h
  | cons kv rest ih =>
    obtain ⟨k1, v1⟩ := kv
    by_cases hk : k1 = k
    · simp [objSet, hk]
    · have hr : k ∈ rest.map Prod.fst := by
        simp only [List.map_cons, List.mem_cons] at h
        rcases h with h | h
        · exact absurd h.symm hk
        · exact h
      simp [objSet, hk, ih hr]

theorem keys_objSet_of_not_mem (t : List (String × Nat)) (k : String) (v : Nat)
    (h : k ∉ t.map Prod.fst) : (objSet t k v).map Prod.fst = t.map Prod.fst ++ [k] := by
  induction t with
  | nil => simp [objSet]
  | cons kv rest ih =>
    obtain ⟨k1, v1⟩ := kv
    simp only [List.map_cons, List.mem_cons, not_or] at h
    have hk : ¬ k1 = k := fun e => h.1 e.symm
    simp [objSet, hk, ih h.2]

theorem mem_keys_objSet (t : List (String × Nat)) (k k' : String) (v : Nat) :
    k' ∈ (objSet t k v).map Prod.fst ↔ k' ∈ t.map Prod.fst ∨ k' = k := by
  by_cases h : k ∈ t.map Prod.fst
  · rw [keys_objSet_of_mem t k v h]
    constructor
    · exact Or.inl
    · rintro (h' | h')
      · exact h'
      · exact h' ▸ h
  · rw [keys_objSet_of_not_mem t k v h]
    simp

theorem lookup_isSome_of_mem_keys (t : List (String × Nat)) (k : String)
    (h : k ∈ t.map Prod.fst) : ∃ v, t.lookup k = some v := by
  induction t with
  | nil => simp at h
  | cons kv rest ih =>
    obtain ⟨k1, v1⟩ := kv
    by_cases hk : k = k1
    · exact ⟨v1, by simp [List.lookup, hk]⟩
    · have hr : k ∈ rest.map Prod.fst := by
        simp only [List.map_cons, List.mem_cons] at h
        rcases h with h | h
        · exact absurd h hk
        · exact h
      obtain ⟨v, hv⟩ := ih hr
      have h' : (k == k1) = false := by simpa using hk
      exact ⟨v, by simp [List.lookup, h', hv]⟩

theorem totalVotes_eq_sum (t : List (String × Nat)) : totalVotes t = (t.map Prod.snd).sum := by
  unfold totalVotes
  rw [List.sum_eq_foldl]

theorem sum_objSet_of_mem (t : List (String × Nat)) (k : String) (v : Nat)
    (h : k ∈ t.map Prod.fst) :
    ((objSet t k v).map Prod.snd).sum + objGet0 t k = (t.map Prod.snd).sum + v := by
  induction t with
  | nil => simp at h
  | cons kv rest ih =>
    obtain ⟨k1, v1⟩ := kv
    by_cases hk : k1 = k
    · subst hk
      simp [objSet, objGet0, List.lookup]
      omega
    · have hr : k ∈ rest.map Prod.fst := by
        simp only [List.map_cons, List.mem_cons] at h
        rcases h with h | h
        · exact absurd h.symm hk
        · exact h
      have h' : (k == k1) = false := by simpa using fun e => hk e.symm
      have := ih hr
      simp only [objGet0] at this
      simp [objSet, hk, objGet0, List.lookup, h']
      omega

theorem objGet0_objSet_self (t : List (String × Nat)) (k : String) (v : Nat) :
    objGet0 (objSet t k v) k = v := by
  simp [objGet0, lookup_objSet_self]

theorem objGet0_objSet_ne (t : List (String × Nat)) (k k' : String) (v : Nat) (hne : k' ≠ k) :
    objGet0 (objSet t k v) k' = objGet0 t k' := by
  simp [objGet0, lookup_objSet_ne t k k' v hne]

theorem mem_objSet (t : List (String × Nat)) (k : String) (v : Nat) (kv : String × Nat)
    (h : kv ∈ objSet t k v) : kv ∈ t ∨ kv = (k, v) := by
  induction t with
  | nil => simpa [objSet] using h
  | cons e rest ih =>
    obtain ⟨k1, v1⟩ := e
    by_cases hk : k1 = k
    · subst hk
      simp only [objSet, if_true, List.mem_cons] at h
      rcases h with h | h
      · exact Or.inr h
      · exact Or.inl (List.mem_cons_of_mem _ h)
    · simp only [objSet, hk, if_false, List.mem_cons] at h
      rcases h with h | h
      · exact Or.inl (h ▸ List.mem_cons_self _ _)
      · rcases ih h with h' | h'
        · exact Or.inl (List.mem_cons_of_mem _ h')
        · exact Or.inr h'

/-! ## The tally pass -/

theorem firstActive_mem (active : List PollOption) (b : Ballot) (k : String)
    (h : firstActive active b = some k) : k ∈ active.map (fun o => o.id) := by
  unfold firstActive at h
  cases hr : b.rankings with
  | none => simp [hr] at h
  | some rs =>
    simp only [hr] at h
    split at h
    · rw [Option.map_eq_some'] at h
      obtain ⟨r, hfind, hk⟩ := h
      have hp := List.find?_some hfind
      rw [Option.isSome_iff_exists] at hp
      obtain ⟨o, ho⟩ := hp
      have hmem := List.mem_of_find?_eq_some ho
      have hid := List.find?_some ho
      simp only [beq_iff_eq] at hid
      exact List.mem_map.mpr ⟨o, hmem, by rw [hid, hk]⟩
    · exact absurd h (by simp)

theorem initTallies_fold_keys (active : List PollOption) (t0 : List (String × Nat)) (k : String) :
    k ∈ (active.foldl (fun t o => objSet t o.id 0) t0).map Prod.fst ↔
      k ∈ t0.map Prod.fst ∨ k ∈ active.map (fun o => o.id) := by
  induction active generalizing t0 with
  | nil => simp
  | cons o rest ih =>
    simp only [List.foldl_cons, List.map_cons, List.mem_cons]
    rw [ih, mem_keys_objSet]
    tauto

theorem mem_keys_initTallies (active : List PollOption) (k : String) :
    k ∈ (initTallies active).map Prod.fst ↔ k ∈ active.map (fun o => o.id) := by
  unfold initTallies
  rw [initTallies_fold_keys]
  simp

theorem initTallies_fold_zero (active : List PollOption) (t0 : List (String × Nat))
    (h0 : ∀ kv ∈ t0, kv.2 = 0) :
    ∀ kv ∈ active.foldl (fun t o => objSet t o.id 0) t0, kv.2 = 0 := by
  induction active generalizing t0 with
  | nil => simpa using h0
  | cons o rest ih =>
    simp only [List.foldl_cons]
    apply ih
    intro kv hkv
    rcases mem_objSet _ _ _ _ hkv with h | h
    · exact h0 kv h
    · rw [h]

theorem sum_eq_zero_of_all_zero (t : List (String × Nat)) (h : ∀ kv ∈ t, kv.2 = 0) :
    (t.map Prod.snd).sum = 0 := by
  induction t with
  | nil => rfl
  | cons e rest ih =>
    simp only [List.map_cons, List.sum_cons]
    rw [h e (List.mem_cons_self _ _), ih (fun kv hkv => h kv (List.mem_cons_of_mem _ hkv))]

theorem objGet0_eq_zero_of_all_zero (t : List (String × Nat)) (h : ∀ kv ∈ t, kv.2 = 0)
    (k : String) : objGet0 t k = 0 := by
  induction t with
  | nil => simp [objGet0, List.lookup]
  | cons e rest ih =>
    obtain ⟨k1, v1⟩ := e
    have hv : v1 = 0 := h (k1, v1) (List.mem_cons_self _ _)
    have hrest := ih (fun kv hkv => h kv (List.mem_cons_of_mem _ hkv))
    unfold objGet0 at hrest ⊢
    by_cases hk : k = k1
    · simp [List.lookup, hk, hv]
    · have h' : (k == k1) = false := by simpa using hk
      simp [List.lookup, h', hrest]

theorem initTallies_zero (active : List PollOption) : ∀ kv ∈ initTallies active, kv.2 = 0 :=
  initTallies_fold_zero active [] (by simp)

/-- The counting pass, started from any dictionary that already has a key for
every active identifier: keys are untouched, each count grows by the number of
ballots voting for it, and the sum grows by the number of voting ballots. -/
theorem castVote_fold (active : List PollOption) (ballots : List Ballot)
    (t0 : List (String × Nat))
    (hkeys : ∀ k ∈ active.map (fun o => o.id), k ∈ t0.map Prod.fst) :
    (ballots.foldl (castVote active) t0).map Prod.fst = t0.map Prod.fst ∧
    (∀ k, objGet0 (ballots.foldl (castVote active) t0) k
        = objGet0 t0 k + votesFor ballots active k) ∧
    ((ballots.foldl (castVote active) t0).map Prod.snd).sum
        = (t0.map Prod.snd).sum + votersCount ballots active := by
  induction ballots generalizing t0 with
  | nil => simp [votesFor, votersCount]
  | cons b rest ih =>
    simp only [List.foldl_cons]
    cases hb : firstActive active b with
    | none =>
      have hstep : castVote active t0 b = t0 := by simp [castVote, hb]
      rw [hstep]
      obtain ⟨h1, h2, h3⟩ := ih t0 hkeys
      refine ⟨h1, ?_, ?_⟩
      · intro k
        rw [h2 k]
        simp [votesFor, List.countP_cons, hb]
      · rw [h3]
        simp [votersCount, List.countP_cons, hb]
    | some k0 =>
      have hstep : castVote active t0 b = objSet t0 k0 (objGet0 t0 k0 + 1) := by
        simp [castVote, hb]
      have hk0 : k0 ∈ t0.map Prod.fst := hkeys k0 (firstActive_mem active b k0 hb)
      have hkeys1 : (objSet t0 k0 (objGet0 t0 k0 + 1)).map Prod.fst = t0.map Prod.fst :=
        keys_objSet_of_mem t0 k0 _ hk0
      rw [hstep]
      obtain ⟨h1, h2, h3⟩ := ih (objSet t0 k0 (objGet0 t0 k0 + 1))
        (by intro k hk; rw [hkeys1]; exact hkeys k hk)
      refine ⟨by rw [h1, hkeys1], ?_, ?_⟩
      · intro k
        rw [h2 k]
        by_cases hk : k = k0
        · subst hk
          rw [objGet0_objSet_self]
          simp [votesFor, List.countP_cons, hb]
          omega
        · rw [objGet0_objSet_ne t0 k0 k _ hk]
          have hne : ¬ k0 = k := fun e => hk e.symm
          simp [votesFor, List.countP_cons, hb, hne]
      · rw [h3]
        have := sum_objSet_of_mem t0 k0 (objGet0 t0 k0 + 1) hk0
        simp [votersCount, List.countP_cons, hb]
        omega

theorem keys_countVotes (ballots : List Ballot) (active : List PollOption) :
    (countVotes ballots active).map Prod.fst = (initTallies active).map Prod.fst :=
  (castVote_fold active ballots (initTallies active)
    (fun k hk => (mem_keys_initTallies active k).mpr hk)).1

theorem objGet0_countVotes (ballots : List Ballot) (active : List PollOption) (k : String) :
    objGet0 (countVotes ballots active) k = votesFor ballots active k := by
  have h := (castVote_fold active ballots (initTallies active)
    (fun k hk => (mem_keys_initTallies active k).mpr hk)).2.1 k
  rw [objGet0_eq_zero_of_all_zero _ (initTallies_zero active)] at h
  unfold countVotes
  omega

theorem totalVotes_countVotes (ballots : List Ballot) (active : List PollOption) :
    totalVotes (countVotes ballots active) = votersCount ballots active := by
  have h := (castVote_fold active ballots (initTallies active)
    (fun k hk => (mem_keys_initTallies active k).mpr hk)).2.2
  rw [sum_eq_zero_of_all_zero _ (initTallies_zero active)] at h
  rw [totalVotes_eq_sum]
  unfold countVotes
  omega

theorem lookup_countVotes (ballots : List Ballot) (active : List PollOption) (k : String)
    (hk : k ∈ active.map (fun o => o.id)) :
    (countVotes ballots active).lookup k = some (votesFor ballots active k) := by
  have hmem : k ∈ (countVotes ballots active).map Prod.fst := by
    rw [keys_countVotes]
    exact (mem_keys_initTallies active k).mpr hk
  obtain ⟨v, hv⟩ := lookup_isSome_of_mem_keys _ k hmem
  have h := objGet0_countVotes ballots active k
  unfold objGet0 at h
  rw [hv] at h ⊢
  simpa using h


/-! ## The elimination step -/

theorem foldl_min_le_init (xs : List Nat) (x : Nat) : xs.foldl min x ≤ x := by
  induction xs generalizing x with
  | nil => simp
  | cons y ys ih =>
    simp only [List.foldl_cons]
    exact le_trans (ih (min x y)) (Nat.min_le_left x y)

theorem foldl_min_le_mem (xs : List Nat) (x y : Nat) (h : y ∈ xs) : xs.foldl min x ≤ y := by
  induction xs generalizing x with
  | nil => simp at h
  | cons z zs ih =>
    simp only [List.foldl_cons]
    rcases List.mem_cons.mp h with h | h
    · subst h
      exact le_trans (foldl_min_le_init zs (min x y)) (Nat.min_le_right x y)
    · exact ih (min x z) h

theorem foldl_min_mem (xs : List Nat) (x : Nat) : xs.foldl min x = x ∨ xs.foldl min x ∈ xs := by
  induction xs generalizing x with
  | nil => simp
  | cons y ys ih =>
    simp only [List.foldl_cons]
    rcases ih (min x y) with h | h
    · rcases Nat.le_total x y with hxy | hxy
      · left; rw [h, Nat.min_eq_left hxy]
      · right; rw [h, Nat.min_eq_right hxy]; exact List.mem_cons_self _ _
    · right; exact List.mem_cons_of_mem _ h

theorem minVotes_mem (xs : List Nat) (h : xs ≠ []) : minVotes xs ∈ xs := by
  cases xs with
  | nil => exact absurd rfl h
  | cons x rest =>
    simp only [minVotes]
    rcases foldl_min_mem rest x with h' | h'
    · rw [h']; exact List.mem_cons_self _ _
    · exact List.mem_cons_of_mem _ h'

theorem minVotes_le (xs : List Nat) (y : Nat) (h : y ∈ xs) : minVotes xs ≤ y := by
  cases xs with
  | nil => simp at h
  | cons x rest =>
    simp only [minVotes]
    rcases List.mem_cons.mp h with h | h
    · subst h; exact foldl_min_le_init rest y
    · exact foldl_min_le_mem rest x y h

/-- The options whose count is minimal (`eliminatedOptions` before `splice`). -/
theorem lowest_ne_nil (active : List PollOption) (t : List (String × Nat)) (h : active ≠ []) :
    active.filter
      (fun o => objGet0 t o.id == minVotes (active.map (fun o => objGet0 t o.id))) ≠ [] := by
  have hne : active.map (fun o => objGet0 t o.id) ≠ [] := by simpa using h
  obtain ⟨o, ho, hv⟩ := List.mem_map.mp (minVotes_mem _ hne)
  intro hnil
  have : o ∈ active.filter
      (fun o => objGet0 t o.id == minVotes (active.map (fun o => objGet0 t o.id))) :=
    List.mem_filter.mpr ⟨ho, by simpa using hv⟩
  rw [hnil] at this
  simp at this

theorem eliminatedOptions_ne_nil (active : List PollOption) (t : List (String × Nat))
    (h : active ≠ []) : eliminatedOptions active t ≠ [] := by
  have hl := lowest_ne_nil active t h
  unfold eliminatedOptions
  simp only
  split
  · intro hnil
    rw [List.take_eq_nil_iff] at hnil
    rcases hnil with hnil | hnil
    · omega
    · exact hl hnil
  · exact hl

theorem eliminatedOptions_sublist (active : List PollOption) (t : List (String × Nat)) :
    (eliminatedOptions active t).Sublist active := by
  unfold eliminatedOptions
  simp only
  split
  · exact (List.take_sublist _ _).trans (List.filter_sublist _)
  · exact List.filter_sublist _

/-- What `splice(1)` does in a full tie: when all active options have the same
count, the array of options to eliminate is cut down to the first active option. -/
theorem eliminatedOptions_full_tie (active : List PollOption) (t : List (String × Nat))
    (hlen : 1 < active.length)
    (htie : ∀ o ∈ active, ∀ o' ∈ active, objGet0 t o.id = objGet0 t o'.id) :
    eliminatedOptions active t = active.take 1 := by
  have hne : active.map (fun o => objGet0 t o.id) ≠ [] := by
    intro e
    rw [List.map_eq_nil_iff] at e
    rw [e] at hlen; simp at hlen
  obtain ⟨o0, ho0, hv⟩ := List.mem_map.mp (minVotes_mem _ hne)
  have hall : active.filter
      (fun o => objGet0 t o.id == minVotes (active.map (fun o => objGet0 t o.id))) = active := by
    rw [List.filter_eq_self]
    intro o ho
    rw [← hv, htie o ho o0 ho0]
    simp
  unfold eliminatedOptions
  simp only [hall]
  rw [if_pos ⟨trivial, hlen⟩]

theorem removeEliminated_sublist (active elim : List PollOption) :
    (removeEliminated active elim).Sublist active :=
  List.filter_sublist _

theorem removeEliminated_length_lt (active : List PollOption) (t : List (String × Nat))
    (h : active ≠ []) :
    (removeEliminated active (eliminatedOptions active t)).length < active.length := by
  obtain ⟨o, ho⟩ := List.exists_mem_of_ne_nil _ (eliminatedOptions_ne_nil active t h)
  have hoa : o ∈ active := (eliminatedOptions_sublist active t).subset ho
  unfold removeEliminated
  rw [List.length_filter_lt_length_iff_exists]
  refine ⟨o, hoa, ?_⟩
  have hfind : ((eliminatedOptions active t).find? (fun eo => eo.id == o.id)).isSome = true := by
    rw [List.find?_isSome]
    exact ⟨o, ho, by simp⟩
  simp [hfind]

/-! ## The loop -/

theorem loop_zero (ballots : List Ballot) (pollOptions active : List PollOption)
    (rounds : List Round) (n : Nat) :
    loop ballots pollOptions 0 active rounds n =
      if 1 < active.length then none else some (finish ballots active rounds) := rfl

theorem loop_done (ballots : List Ballot) (pollOptions active : List PollOption)
    (rounds : List Round) (n fuel : Nat) (h : ¬ 1 < active.length) :
    loop ballots pollOptions fuel active rounds n = some (finish ballots active rounds) := by
  cases fuel <;> simp [loop, h]

theorem loop_won (ballots : List Ballot) (pollOptions active : List PollOption)
    (rounds : List Round) (n fuel : Nat) (w : PollOption) (h : 1 < active.length)
    (hw : majorityWinner pollOptions (countVotes ballots active) = some w) :
    loop ballots pollOptions (fuel + 1) active rounds n =
      some (winnerResult rounds n active (countVotes ballots active) w) := by
  simp [loop, h, hw]

theorem loop_eliminate (ballots : List Ballot) (pollOptions active : List PollOption)
    (rounds : List Round) (n fuel : Nat) (h : 1 < active.length)
    (hw : majorityWinner pollOptions (countVotes ballots active) = none) :
    loop ballots pollOptions (fuel + 1) active rounds n =
      if (removeEliminated active
          (eliminatedOptions active (countVotes ballots active))).length = 0 then
        some (finish ballots
          (removeEliminated active (eliminatedOptions active (countVotes ballots active)))
          (rounds ++ [eliminationRound n active (countVotes ballots active)]))
      else
        loop ballots pollOptions fuel
          (removeEliminated active (eliminatedOptions active (countVotes ballots active)))
          (rounds ++ [eliminationRound n active (countVotes ballots active)]) (n + 1) := by
  simp [loop, h, hw]

/-- Induction along the iterations of the loop: a property of (state, result)
that holds at each of the three exits and is carried back over one elimination
round holds of every result the loop returns. -/
theorem loop_induct (ballots : List Ballot) (pollOptions : List PollOption)
    (P : List PollOption → List Round → Nat → Result → Prop)
    (hdone : ∀ active rounds n, ¬ 1 < active.length → P active rounds n (finish ballots active rounds))
    (hwon : ∀ active rounds n w, 1 < active.length →
      majorityWinner pollOptions (countVotes ballots active) = some w →
      P active rounds n (winnerResult rounds n active (countVotes ballots active) w))
    (hstep : ∀ active rounds n res, 1 < active.length →
      majorityWinner pollOptions (countVotes ballots active) = none →
      P (removeEliminated active (eliminatedOptions active (countVotes ballots active)))
        (rounds ++ [eliminationRound n active (countVotes ballots active)]) (n + 1) res →
      P active rounds n res) :
    ∀ fuel active rounds n res,
      loop ballots pollOptions fuel active rounds n = some res → P active rounds n res := by
  intro fuel
  induction fuel with
  | zero =>
    intro active rounds n res h
    rw [loop_zero] at h
    split at h
    · exact absurd h (by simp)
    · rename_i hlen
      have : res = finish ballots active rounds := by simpa using h.symm
      rw [this]; exact hdone active rounds n hlen
  | succ fuel ih =>
    intro active rounds n res h
    by_cases hlen : 1 < active.length
    · cases hw : majorityWinner pollOptions (countVotes ballots active) with
      | some w =>
        rw [loop_won ballots pollOptions active rounds n fuel w hlen hw] at h
        have : res = winnerResult rounds n active (countVotes ballots active) w := by
          simpa using h.symm
        rw [this]; exact hwon active rounds n w hlen hw
      | none =>
        rw [loop_eliminate ballots pollOptions active rounds n fuel hlen hw] at h
        apply hstep active rounds n res hlen hw
        split at h
        · rename_i hempty
          have hres : res = finish ballots
              (removeEliminated active (eliminatedOptions active (countVotes ballots active)))
              (rounds ++ [eliminationRound n active (countVotes ballots active)]) := by
            simpa using h.symm
          rw [hres]
          exact hdone _ _ _ (by omega)
        · exact ih _ _ _ _ h
    · rw [loop_done ballots pollOptions active rounds n (fuel + 1) hlen] at h
      have : res = finish ballots active rounds := by simpa using h.symm
      rw [this]; exact hdone active rounds n hlen

/-- Fuel is never exhausted: the loop returns whenever the fuel is at least the
length of the active list minus one. -/
theorem loop_returns (ballots : List Ballot) (pollOptions : List PollOption) :
    ∀ fuel active rounds n, active.length ≤ fuel + 1 →
      ∃ res, loop ballots pollOptions fuel active rounds n = some res := by
  intro fuel
  induction fuel with
  | zero =>
    intro active rounds n hlen
    exact ⟨_, loop_done ballots pollOptions active rounds n 0 (by omega)⟩
  | succ fuel ih =>
    intro active rounds n hlen
    by_cases h1 : 1 < active.length
    · cases hw : majorityWinner pollOptions (countVotes ballots active) with
      | some w => exact ⟨_, loop_won ballots pollOptions active rounds n fuel w h1 hw⟩
      | none =>
        rw [loop_eliminate ballots pollOptions active rounds n fuel h1 hw]
        split
        · exact ⟨_, rfl⟩
        · apply ih
          have hne : active ≠ [] := by
            intro e; rw [e] at h1; simp at h1
          have := removeEliminated_length_lt active (countVotes ballots active) hne
          omega
    · exact ⟨_, loop_done ballots pollOptions active rounds n (fuel + 1) h1⟩

theorem calculateInstantRunoff_returns (ballots : List Ballot) (pollOptions : List PollOption) :
    ∃ res, calculateInstantRunoff ballots pollOptions = some res := by
  unfold calculateInstantRunoff
  split
  · rename_i h1
    cases pollOptions with
    | nil => simp at h1
    | cons o rest => exact ⟨_, rfl⟩
  · split
    · exact ⟨_, rfl⟩
    · exact loop_returns ballots pollOptions _ _ _ _ (by omega)

theorem calculateInstantRunoff_eq_loop (ballots : List Ballot) (pollOptions : List PollOption)
    (h : 2 ≤ pollOptions.length) :
    calculateInstantRunoff ballots pollOptions =
      loop ballots pollOptions pollOptions.length pollOptions [] 1 := by
  unfold calculateInstantRunoff
  rw [if_neg (by omega), if_neg (by omega)]

/-! ## The direct count -/

theorem head?_orderedInsert_rank (a : Ranking) (l : List Ranking) :
    (l.orderedInsert (fun a b => a.rank ≤ b.rank) a).head? =
      match l.head? with
      | none => some a
      | some b => if a.rank ≤ b.rank then some a else some b := by
  cases l with
  | nil => rfl
  | cons b l =>
    simp only [List.orderedInsert, List.head?_cons]
    split <;> rfl

theorem head?_sortedRankings_cons (a : Ranking) (l : List Ranking) :
    (sortedRankings (a :: l)).head? =
      match (sortedRankings l).head? with
      | none => some a
      | some b => if a.rank ≤ b.rank then some a else some b := by
  unfold sortedRankings
  rw [List.insertionSort, head?_orderedInsert_rank]

theorem foldl_pickSmaller (rs : List Ranking) (b : Ranking) :
    rs.foldl pickSmaller (some b) =
      some (match (sortedRankings rs).head? with
        | none => b
        | some h => if h.rank < b.rank then h else b) := by
  induction rs generalizing b with
  | nil => rfl
  | cons a l ih =>
    simp only [List.foldl_cons, pickSmaller]
    rw [head?_sortedRankings_cons]
    by_cases hab : a.rank < b.rank
    · rw [if_pos hab, ih a]
      cases hs : (sortedRankings l).head? with
      | none => simp [hab]
      | some h =>
        by_cases hah : a.rank ≤ h.rank
        · have h1 : ¬ h.rank < a.rank := by omega
          simp [hah, h1, hab]
        · have h1 : h.rank < a.rank := by omega
          have h2 : h.rank < b.rank := by omega
          simp [hah, h1, h2]
    · rw [if_neg hab, ih b]
      cases hs : (sortedRankings l).head? with
      | none => simp [hab]
      | some h =>
        by_cases hah : a.rank ≤ h.rank
        · have h1 : ¬ h.rank < b.rank := by omega
          simp [hah, h1, hab]
        · simp [hah]

/-- The first entry of the sorted copy is the entry with the smallest rank. -/
theorem head?_sortedRankings (rs : List Ranking) :
    (sortedRankings rs).head? = smallestRankEntry rs := by
  cases rs with
  | nil => rfl
  | cons a l =>
    rw [head?_sortedRankings_cons]
    unfold smallestRankEntry
    simp only [List.foldl_cons, pickSmaller]
    rw [foldl_pickSmaller]
    cases hs : (sortedRankings l).head? with
    | none => rfl
    | some h =>
      by_cases hah : a.rank ≤ h.rank
      · have h1 : ¬ h.rank < a.rank := by omega
        simp [hah, h1]
      · have h1 : h.rank < a.rank := by omega
        simp [hah, h1]

theorem firstChoiceIs_eq_ranksFirst (id : String) (b : Ballot) :
    firstChoiceIs id b = ranksFirst id b := by
  unfold firstChoiceIs ranksFirst
  cases b.rankings with
  | none => rfl
  | some rs =>
    simp only
    rw [head?_sortedRankings]
    cases rs with
    | nil => rfl
    | cons a l => simp

theorem directCount_fold (ballots : List Ballot) (id : String) (c : Nat) :
    ballots.foldl (fun c b => if firstChoiceIs id b then c + 1 else c) c
      = c + ballots.countP (firstChoiceIs id) := by
  induction ballots generalizing c with
  | nil => simp
  | cons b rest ih =>
    simp only [List.foldl_cons, List.countP_cons]
    rw [ih]
    split <;> omega

theorem directCount_eq_countP (ballots : List Ballot) (id : String) :
    directCount ballots id = ballots.countP (ranksFirst id) := by
  unfold directCount
  rw [directCount_fold, Nat.zero_add]
  congr 1
  funext b
  exact firstChoiceIs_eq_ranksFirst id b

/-! ## Rounds bound -/

theorem finish_rounds (ballots : List Ballot) (active : List PollOption) (rounds : List Round) :
    (finish ballots active rounds).rounds = rounds := by
  unfold finish
  split <;> rfl

theorem loop_rounds_length (ballots : List Ballot) (pollOptions : List PollOption)
    (fuel : Nat) (active : List PollOption) (rounds : List Round) (n : Nat) (res : Result)
    (h : loop ballots pollOptions fuel active rounds n = some res) :
    res.rounds.length ≤ rounds.length + (active.length - 1) := by
  refine loop_induct ballots pollOptions
    (fun active rounds _ res => res.rounds.length ≤ rounds.length + (active.length - 1))
    ?_ ?_ ?_ fuel active rounds n res h
  · intro active rounds n _
    rw [finish_rounds]
    omega
  · intro active rounds n w hlen _
    simp only [winnerResult, List.length_append, List.length_singleton]
    omega
  · intro active rounds n res hlen _ ih
    have hne : active ≠ [] := by
      intro e; rw [e] at hlen; simp at hlen
    have hlt := removeEliminated_length_lt active (countVotes ballots active) hne
    simp only [List.length_append, List.length_singleton] at ih
    omega

/-! ## Keys of the tally dictionary -/

theorem nodup_keys_objSet (t : List (String × Nat)) (k : String) (v : Nat)
    (h : (t.map Prod.fst).Nodup) : ((objSet t k v).map Prod.fst).Nodup := by
  by_cases hk : k ∈ t.map Prod.fst
  · rw [keys_objSet_of_mem t k v hk]; exact h
  · rw [keys_objSet_of_not_mem t k v hk]
    exact List.Nodup.append h (List.nodup_singleton k) (by simpa using hk)

theorem initTallies_fold_nodup (active : List PollOption) (t0 : List (String × Nat))
    (h : (t0.map Prod.fst).Nodup) :
    ((active.foldl (fun t o => objSet t o.id 0) t0).map Prod.fst).Nodup := by
  induction active generalizing t0 with
  | nil => simpa using h
  | cons o rest ih =>
    simp only [List.foldl_cons]
    exact ih _ (nodup_keys_objSet t0 o.id 0 h)

theorem nodup_keys_countVotes (ballots : List Ballot) (active : List PollOption) :
    ((countVotes ballots active).map Prod.fst).Nodup := by
  rw [keys_countVotes]
  exact initTallies_fold_nodup active [] (by simp)

theorem mem_keys_countVotes (ballots : List Ballot) (active : List PollOption) (k : String) :
    k ∈ (countVotes ballots active).map Prod.fst ↔ k ∈ active.map (fun o => o.id) := by
  rw [keys_countVotes, mem_keys_initTallies]

theorem lookup_of_mem_of_nodup (t : List (String × Nat)) (h : (t.map Prod.fst).Nodup)
    (kv : String × Nat) (hkv : kv ∈ t) : t.lookup kv.1 = some kv.2 := by
  induction t with
  | nil => simp at hkv
  | cons e rest ih =>
    obtain ⟨k1, v1⟩ := e
    simp only [List.map_cons, List.nodup_cons] at h
    rcases List.mem_cons.mp hkv with heq | hmem
    · subst heq
      simp [List.lookup]
    · have hne : kv.1 ≠ k1 := by
        intro e
        exact h.1 (e ▸ List.mem_map_of_mem Prod.fst hmem)
      have h' : (kv.1 == k1) = false := by simpa using hne
      simp only [List.lookup, h']
      exact ih h.2 hmem

/-- An entry of the tally dictionary holds the number of ballots voting for its key. -/
theorem mem_countVotes (ballots : List Ballot) (active : List PollOption)
    (kv : String × Nat) (hkv : kv ∈ countVotes ballots active) :
    kv.1 ∈ active.map (fun o => o.id) ∧ kv.2 = votesFor ballots active kv.1 := by
  have hk : kv.1 ∈ active.map (fun o => o.id) :=
    (mem_keys_countVotes ballots active kv.1).mp (List.mem_map_of_mem Prod.fst hkv)
  refine ⟨hk, ?_⟩
  have h1 := lookup_of_mem_of_nodup _ (nodup_keys_countVotes ballots active) kv hkv
  rw [lookup_countVotes ballots active kv.1 hk] at h1
  exact (Option.some.inj h1).symm

theorem mem_countVotes_of_mem (ballots : List Ballot) (active : List PollOption) (k : String)
    (hk : k ∈ active.map (fun o => o.id)) :
    (k, votesFor ballots active k) ∈ countVotes ballots active := by
  have hmem := (mem_keys_countVotes ballots active k).mpr hk
  obtain ⟨kv, hkv, hfst⟩ := List.mem_map.mp hmem
  have := (mem_countVotes ballots active kv hkv).2
  rw [hfst] at this
  have hpair : kv = (k, votesFor ballots active k) := by
    rw [← this, ← hfst]
  rw [← hpair]; exact hkv

/-! ## The majority search -/

theorem add_le_sum_of_mem_ne (t : List (String × Nat)) (a b : String × Nat)
    (ha : a ∈ t) (hb : b ∈ t) (hne : a ≠ b) : a.2 + b.2 ≤ (t.map Prod.snd).sum := by
  induction t with
  | nil => simp at ha
  | cons e rest ih =>
    simp only [List.map_cons, List.sum_cons]
    have single : ∀ c : String × Nat, c ∈ rest → c.2 ≤ (rest.map Prod.snd).sum := by
      intro c hc
      exact List.single_le_sum (fun _ _ => Nat.zero_le _) _ (List.mem_map_of_mem Prod.snd hc)
    rcases List.mem_cons.mp ha with ha | ha <;> rcases List.mem_cons.mp hb with hb | hb
    · exact absurd (ha.trans hb.symm) hne
    · have := single b hb; subst ha; omega
    · have := single a ha; subst hb; omega
    · have := ih ha hb; omega

/-- At most one entry of a dictionary exceeds half of the total, so the result
of the majority search does not depend on the order in which keys are visited. -/
theorem majority_unique (t : List (String × Nat)) (a b : String × Nat)
    (ha : a ∈ t) (hb : b ∈ t) (hma : totalVotes t < 2 * a.2) (hmb : totalVotes t < 2 * b.2) :
    a = b := by
  by_contra hne
  have := add_le_sum_of_mem_ne t a b ha hb hne
  rw [totalVotes_eq_sum] at hma hmb
  omega

theorem find?_id_of_nodup (l : List PollOption) (h : (l.map (fun o => o.id)).Nodup)
    (w : PollOption) (hw : w ∈ l) : l.find? (fun o => o.id == w.id) = some w := by
  induction l with
  | nil => simp at hw
  | cons o rest ih =>
    simp only [List.map_cons, List.nodup_cons] at h
    rcases List.mem_cons.mp hw with heq | hmem
    · subst heq; simp
    · have hne : o.id ≠ w.id := by
        intro e
        exact h.1 (e ▸ List.mem_map_of_mem (fun o => o.id) hmem)
      have h' : (o.id == w.id) = false := by simpa using hne
      rw [List.find?_cons, h']
      exact ih h.2 hmem

/-- What a majority winner is: an input option whose identifier is active, whose
recorded count is the number of ballots voting for it, and that count is more
than half of the ballots that vote in the round. -/
theorem majorityWinner_sound (ballots : List Ballot) (pollOptions active : List PollOption)
    (w : PollOption)
    (h : majorityWinner pollOptions (countVotes ballots active) = some w) :
    w ∈ pollOptions ∧ w.id ∈ active.map (fun o => o.id) ∧
    (countVotes ballots active).lookup w.id = some (votesFor ballots active w.id) ∧
    votersCount ballots active < 2 * votesFor ballots active w.id := by
  unfold majorityWinner at h
  split at h
  · rename_i kv hfind
    have hkv := List.mem_of_find?_eq_some hfind
    have hp := List.find?_some hfind
    have hw := List.mem_of_find?_eq_some h
    have hid := List.find?_some h
    simp only [beq_iff_eq] at hid
    obtain ⟨hk, hv⟩ := mem_countVotes ballots active kv hkv
    rw [← hid] at hk hv
    refine ⟨hw, hk, lookup_countVotes ballots active w.id hk, ?_⟩
    rw [totalVotes_countVotes] at hp
    rw [← hv]
    simpa using hp
  · exact absurd h (by simp)

theorem majorityWinner_complete (ballots : List Ballot) (pollOptions active : List PollOption)
    (hid : (pollOptions.map (fun o => o.id)).Nodup)
    (w : PollOption) (hw : w ∈ pollOptions) (hactive : w.id ∈ active.map (fun o => o.id))
    (hmaj : votersCount ballots active < 2 * votesFor ballots active w.id) :
    majorityWinner pollOptions (countVotes ballots active) = some w := by
  have hmem := mem_countVotes_of_mem ballots active w.id hactive
  have hp : (fun kv : String × Nat => decide (totalVotes (countVotes ballots active) < 2 * kv.2))
      (w.id, votesFor ballots active w.id) = true := by
    rw [totalVotes_countVotes]
    simpa using hmaj
  unfold majorityWinner
  cases hfind : (countVotes ballots active).find?
      (fun kv => decide (totalVotes (countVotes ballots active) < 2 * kv.2)) with
  | none =>
    rw [List.find?_eq_none] at hfind
    exact absurd hp (hfind _ hmem)
  | some kv =>
    have hkv := List.mem_of_find?_eq_some hfind
    have hpk := List.find?_some hfind
    have heq : kv = (w.id, votesFor ballots active w.id) :=
      majority_unique _ _ _ hkv hmem (by simpa using hpk) (by simpa using hp)
    simp only [heq]
    exact find?_id_of_nodup pollOptions hid w hw

theorem majorityWinner_none (ballots : List Ballot) (pollOptions active : List PollOption)
    (h : ∀ k ∈ active.map (fun o => o.id), 2 * votesFor ballots active k ≤ votersCount ballots active) :
    majorityWinner pollOptions (countVotes ballots active) = none := by
  cases hw : majorityWinner pollOptions (countVotes ballots active) with
  | none => rfl
  | some w =>
    obtain ⟨_, hk, _, hmaj⟩ := majorityWinner_sound ballots pollOptions active w hw
    have := h w.id hk
    omega

/-! ## Conservation -/

theorem values_eq_map_keys (t : List (String × Nat)) (h : (t.map Prod.fst).Nodup) :
    t.map Prod.snd = (t.map Prod.fst).map (objGet0 t) := by
  rw [List.map_map]
  apply List.map_congr_left
  intro kv hkv
  simp [objGet0, lookup_of_mem_of_nodup t h kv hkv]

theorem initTallies_fold_keys_of_nodup (active : List PollOption) (t0 : List (String × Nat))
    (h : (t0.map Prod.fst ++ active.map (fun o => o.id)).Nodup) :
    (active.foldl (fun t o => objSet t o.id 0) t0).map Prod.fst
      = t0.map Prod.fst ++ active.map (fun o => o.id) := by
  induction active generalizing t0 with
  | nil => simp
  | cons o rest ih =>
    simp only [List.foldl_cons, List.map_cons]
    have hnot : o.id ∉ t0.map Prod.fst := by
      intro hmem
      have := (List.nodup_append.mp h).2.2
      exact this hmem (by simp)
    have hkeys := keys_objSet_of_not_mem t0 o.id 0 hnot
    rw [ih, hkeys]
    · simp
    · rw [hkeys]
      simpa using h

theorem keys_countVotes_of_nodup (ballots : List Ballot) (active : List PollOption)
    (h : (active.map (fun o => o.id)).Nodup) :
    (countVotes ballots active).map Prod.fst = active.map (fun o => o.id) := by
  rw [keys_countVotes]
  unfold initTallies
  rw [initTallies_fold_keys_of_nodup active [] (by simpa using h)]
  simp

/-- Every voting ballot is counted for exactly one active option. -/
theorem votersCount_eq_sum (ballots : List Ballot) (active : List PollOption)
    (h : (active.map (fun o => o.id)).Nodup) :
    votersCount ballots active = (active.map (fun o => votesFor ballots active o.id)).sum := by
  rw [← totalVotes_countVotes, totalVotes_eq_sum,
    values_eq_map_keys _ (nodup_keys_countVotes ballots active),
    keys_countVotes_of_nodup ballots active h, List.map_map]
  congr 1
  apply List.map_congr_left
  intro o _
  exact objGet0_countVotes ballots active o.id

/-! ## Rounds recorded by the loop -/

theorem loop_winner_rounds (ballots : List Ballot) (pollOptions : List PollOption)
    (fuel : Nat) (active : List PollOption) (rounds : List Round) (n : Nat) (res : Result)
    (h : loop ballots pollOptions fuel active rounds n = some res)
    (hsub : active.Sublist pollOptions) (hprev : ∀ r ∈ rounds, r.winner = none) :
    ∀ r ∈ res.rounds, r.winner ≠ none → MajorityRound ballots pollOptions res r := by
  refine loop_induct ballots pollOptions
    (fun active rounds _ res => active.Sublist pollOptions → (∀ r ∈ rounds, r.winner = none) →
      ∀ r ∈ res.rounds, r.winner ≠ none → MajorityRound ballots pollOptions res r)
    ?_ ?_ ?_ fuel active rounds n res h hsub hprev
  · intro active rounds n _ _ hprev r hr hwin
    rw [finish_rounds] at hr
    exact absurd (hprev r hr) hwin
  · intro active rounds n w _ hw hsub hprev r hr hwin
    simp only [winnerResult, List.mem_append, List.mem_singleton] at hr
    rcases hr with hr | hr
    · exact absurd (hprev r hr) hwin
    · obtain ⟨hwp, _, hlook, hmaj⟩ := majorityWinner_sound ballots pollOptions active w hw
      refine ⟨active, w, hsub, hwp, ?_, ?_, ?_, totalVotes_countVotes ballots active, hmaj, ?_⟩
      · rw [hr]; rfl
      · rw [hr]; rfl
      · rw [hr]; exact hlook
      · simp only [winnerResult, hlook, VoteCount.ofLookup]
  · intro active rounds n res _ _ ih hsub hprev
    apply ih ((removeEliminated_sublist _ _).trans hsub)
    intro r hr
    rcases List.mem_append.mp hr with hr | hr
    · exact hprev r hr
    · rw [List.mem_singleton.mp hr]; rfl

/-! ## The text-keyed tallies -/

theorem objSet_of_not_mem (t : List (String × Nat)) (k : String) (v : Nat)
    (h : k ∉ t.map Prod.fst) : objSet t k v = t ++ [(k, v)] := by
  induction t with
  | nil => rfl
  | cons e rest ih =>
    obtain ⟨k1, v1⟩ := e
    simp only [List.map_cons, List.mem_cons, not_or] at h
    have hk : ¬ k1 = k := fun e => h.1 e.symm
    simp [objSet, hk, ih h.2]

theorem lookup_eq_none_of_not_mem_keys (t : List (String × Nat)) (k : String)
    (h : k ∉ t.map Prod.fst) : t.lookup k = none := by
  induction t with
  | nil => rfl
  | cons e rest ih =>
    obtain ⟨k1, v1⟩ := e
    simp only [List.map_cons, List.mem_cons, not_or] at h
    have h' : (k == k1) = false := by simpa using h.1
    simp only [List.lookup, h']
    exact ih h.2

theorem perm_insertIndex (t : List (String × Nat)) (n : Nat) (k : String) (v : Nat) :
    (insertIndex t n k v).Perm ((k, v) :: t) := by
  induction t with
  | nil => exact List.Perm.refl _
  | cons e rest ih =>
    obtain ⟨k1, v1⟩ := e
    simp only [insertIndex]
    split
    · split
      · exact (ih.cons _).trans (List.Perm.swap _ _ _)
      · exact List.Perm.refl _
    · exact List.Perm.refl _

/-- A key that is new and is not `__proto__` adds one entry to the object. -/
theorem perm_textSet_of_new (t : List (String × Nat)) (k : String) (v : Nat)
    (hk : k ≠ "__proto__") (hnew : k ∉ t.map Prod.fst) :
    (textSet t k v).Perm (t ++ [(k, v)]) := by
  unfold textSet
  rw [if_neg hk, lookup_eq_none_of_not_mem_keys t k hnew]
  simp only [Option.isSome_none, Bool.false_eq_true, if_false]
  split
  · exact (perm_insertIndex t _ k v).trans (List.perm_append_singleton _ _).symm
  · exact List.Perm.refl _

/-- An assignment to the key `__proto__` leaves the object as it is. -/
theorem textSet_proto (t : List (String × Nat)) (v : Nat) : textSet t "__proto__" v = t := by
  simp [textSet]

theorem formatTallies_fold_perm (active : List PollOption) (t f0 : List (String × Nat))
    (h : (f0.map Prod.fst ++ active.map displayText).Nodup)
    (hproto : "__proto__" ∉ active.map displayText) :
    (active.foldl (fun f o => textSet f (displayText o) (objGet0 t o.id)) f0).Perm
      (f0 ++ active.map (fun o => (displayText o, objGet0 t o.id))) := by
  induction active generalizing f0 with
  | nil => simp
  | cons o rest ih =>
    simp only [List.foldl_cons, List.map_cons]
    have hnot : displayText o ∉ f0.map Prod.fst := by
      intro hmem
      exact (List.nodup_append.mp h).2.2 hmem (by simp)
    have hne : displayText o ≠ "__proto__" := by
      intro e
      exact hproto (by simp [e])
    have hstep := perm_textSet_of_new f0 (displayText o) (objGet0 t o.id) hne hnot
    have hnd : ((textSet f0 (displayText o) (objGet0 t o.id)).map Prod.fst
        ++ rest.map displayText).Nodup := by
      have hp : ((textSet f0 (displayText o) (objGet0 t o.id)).map Prod.fst
          ++ rest.map displayText).Perm
          (f0.map Prod.fst ++ (o :: rest).map displayText) := by
        have := (hstep.map Prod.fst).append_right (rest.map displayText)
        simpa using this
      exact hp.nodup_iff.mpr h
    have hrest : "__proto__" ∉ rest.map displayText := by
      intro hmem
      exact hproto (by simp only [List.map_cons, List.mem_cons]; exact Or.inr hmem)
    refine (ih _ hnd hrest).trans ?_
    have := hstep.append_right (rest.map (fun o => (displayText o, objGet0 t o.id)))
    simpa using this

/-- The entries are listed as the object enumerates them: the array-index
texts `2` and `10` first, in ascending order, then `b` and `01` (which is not an
array index) in insertion order. -/
theorem formatTallies_enumeration_order :
    formatTallies
        [mkOption "x" "b", mkOption "y" "10", mkOption "z" "2", mkOption "w" "01"]
        [("x", 1), ("y", 2), ("z", 3), ("w", 4)]
      = [("2", 3), ("10", 2), ("b", 1), ("01", 4)] := by
  decide

/-- The text `__proto__` gets no entry, and reading it gives the prototype
object; the text `constructor` gets an entry like any other. -/
theorem formatTallies_proto_text :
    formatTallies [optQ, optP, mkOption "c" "constructor"] [("q", 1), ("p", 2), ("c", 3)]
      = [("Q", 1), ("constructor", 3)] ∧
    textGet0 [("Q", 1), ("constructor", 3)] "__proto__" = VoteCount.inherited "__proto__" ∧
    textGet0 [("Q", 1), ("constructor", 3)] "constructor" = VoteCount.number 3 ∧
    textGet0 [("Q", 1)] "constructor" = VoteCount.inherited "constructor" := by
  decide

/-- With pairwise distinct display texts, none of them `__proto__`, the
text-keyed tallies have exactly one entry for each active option, holding the
count of that option. -/
theorem formatTallies_perm (active : List PollOption) (t : List (String × Nat))
    (h : (active.map displayText).Nodup) (hproto : "__proto__" ∉ active.map displayText) :
    (formatTallies active t).Perm
      (active.map (fun o => (displayText o, objGet0 t o.id))) := by
  unfold formatTallies
  have := formatTallies_fold_perm active t [] (by simpa using h) hproto
  simpa using this

theorem sum_formatTallies_countVotes (ballots : List Ballot) (active : List PollOption)
    (hid : (active.map (fun o => o.id)).Nodup) (htext : (active.map displayText).Nodup)
    (hproto : "__proto__" ∉ active.map displayText) :
    ((formatTallies active (countVotes ballots active)).map Prod.snd).sum
      = votersCount ballots active := by
  rw [((formatTallies_perm active _ htext hproto).map Prod.snd).sum_eq,
    votersCount_eq_sum ballots active hid, List.map_map]
  congr 1
  apply List.map_congr_left
  intro o _
  exact objGet0_countVotes ballots active o.id

theorem firstActive_isSome (active : List PollOption) (b : Ballot) :
    (firstActive active b).isSome = ranksSomeOption active b := by
  unfold firstActive ranksSomeOption
  cases b.rankings with
  | none => rfl
  | some rs =>
    simp only
    cases rs with
    | nil => rfl
    | cons a l =>
      rw [if_pos (by simp), Option.isSome_map']
      rw [Bool.eq_iff_iff, List.find?_isSome, List.any_eq_true]
      constructor
      · rintro ⟨r, hr, hp⟩
        refine ⟨r, ((List.perm_insertionSort _ _).mem_iff).mp hr, ?_⟩
        rw [List.find?_isSome] at hp
        rw [List.any_eq_true]
        exact hp
      · rintro ⟨r, hr, hp⟩
        refine ⟨r, ((List.perm_insertionSort _ _).mem_iff).mpr hr, ?_⟩
        rw [List.find?_isSome]
        rw [List.any_eq_true] at hp
        exact hp

theorem votersCount_eq_countP (ballots : List Ballot) (active : List PollOption) :
    votersCount ballots active = ballots.countP (ranksSomeOption active) := by
  unfold votersCount
  congr 1
  funext b
  exact firstActive_isSome active b

/-- The rounds already recorded stay at the front of the result's rounds, and a
loop entered with two or more active options records the tally of those
options next. -/
theorem loop_first_round (ballots : List Ballot) (pollOptions : List PollOption)
    (fuel : Nat) (active : List PollOption) (rounds : List Round) (n : Nat) (res : Result)
    (h : loop ballots pollOptions fuel active rounds n = some res) :
    rounds <+: res.rounds ∧
    (1 < active.length → ∃ r, (rounds ++ [r]) <+: res.rounds ∧ r.roundNumber = n ∧
      r.tallies = formatTallies active (countVotes ballots active)) := by
  refine loop_induct ballots pollOptions
    (fun active rounds n res => rounds <+: res.rounds ∧
      (1 < active.length → ∃ r, (rounds ++ [r]) <+: res.rounds ∧ r.roundNumber = n ∧
        r.tallies = formatTallies active (countVotes ballots active)))
    ?_ ?_ ?_ fuel active rounds n res h
  · intro active rounds n hlen
    rw [finish_rounds]
    exact ⟨List.prefix_refl _, fun h => absurd h hlen⟩
  · intro active rounds n w _ _
    refine ⟨List.prefix_append _ _, fun _ => ⟨_, List.prefix_refl _, rfl, rfl⟩⟩
  · intro active rounds n res _ _ ih
    refine ⟨(List.prefix_append _ _).trans ih.1, fun _ => ⟨_, ih.1, rfl, rfl⟩⟩

/-! ## Eliminations across rounds -/

theorem flattenEliminated_append (rounds : List Round) (r : Round) :
    flattenEliminated (rounds ++ [r]) = flattenEliminated rounds ++ r.eliminated.getD [] := by
  simp [flattenEliminated, List.flatMap_append]

theorem finish_eliminated (ballots : List Ballot) (active : List PollOption)
    (rounds : List Round) : (finish ballots active rounds).eliminated = flattenEliminated rounds := by
  unfold finish
  split <;> rfl

theorem finish_winner (ballots : List Ballot) (active : List PollOption) (rounds : List Round)
    (w : Winner) (h : (finish ballots active rounds).winner = some w) :
    ∃ o, active = [o] ∧ w.id = o.id ∧ w.optionText = winnerText o := by
  unfold finish at h
  split at h
  · rename_i o
    simp only [Option.some.injEq] at h
    exact ⟨o, rfl, by rw [← h], by rw [← h]⟩
  · exact absurd h (by simp)

theorem mem_removeEliminated (active elim : List PollOption) (a : PollOption) :
    a ∈ removeEliminated active elim ↔ a ∈ active ∧ ∀ e ∈ elim, e.id ≠ a.id := by
  unfold removeEliminated
  rw [List.mem_filter]
  constructor
  · rintro ⟨ha, hp⟩
    refine ⟨ha, fun e he heq => ?_⟩
    have : (elim.find? (fun eo => eo.id == a.id)).isSome = true := by
      rw [List.find?_isSome]
      exact ⟨e, he, by simpa using heq⟩
    simp [this] at hp
  · rintro ⟨ha, hp⟩
    refine ⟨ha, ?_⟩
    cases hfind : elim.find? (fun eo => eo.id == a.id) with
    | none => rfl
    | some e =>
      have he := List.mem_of_find?_eq_some hfind
      have hid := List.find?_some hfind
      exact absurd (by simpa using hid) (hp e he)

theorem elimInv_step (ballots : List Ballot) (pollOptions active : List PollOption)
    (rounds : List Round) (n : Nat)
    (htext : (pollOptions.map displayText).Nodup)
    (hinv : ElimInv pollOptions active rounds) :
    ElimInv pollOptions
      (removeEliminated active (eliminatedOptions active (countVotes ballots active)))
      (rounds ++ [eliminationRound n active (countVotes ballots active)]) := by
  obtain ⟨hsub, hnd, hall⟩ := hinv
  have helim := eliminatedOptions_sublist active (countVotes ballots active)
  have hactive_nd : (active.map displayText).Nodup := (hsub.map displayText).nodup htext
  have hflat : flattenEliminated (rounds ++ [eliminationRound n active (countVotes ballots active)])
      = flattenEliminated rounds
        ++ (eliminatedOptions active (countVotes ballots active)).map displayText := by
    rw [flattenEliminated_append]; rfl
  rw [ElimInv, hflat]
  refine ⟨(removeEliminated_sublist _ _).trans hsub, ?_, ?_⟩
  · apply List.Nodup.append hnd ((helim.map displayText).nodup hactive_nd)
    intro x hx hx'
    exact (hall x hx).2 ((helim.map displayText).subset hx')
  · intro x hx
    rcases List.mem_append.mp hx with hx | hx
    · refine ⟨(hall x hx).1, fun hmem => (hall x hx).2 ?_⟩
      exact ((removeEliminated_sublist _ _).map displayText).subset hmem
    · refine ⟨(hsub.map displayText).subset ((helim.map displayText).subset hx), ?_⟩
      intro hmem
      obtain ⟨e, he, hex⟩ := List.mem_map.mp hx
      obtain ⟨a, ha, hax⟩ := List.mem_map.mp hmem
      obtain ⟨haa, hne⟩ := (mem_removeEliminated _ _ a).mp ha
      have hea : e = a :=
        List.inj_on_of_nodup_map hactive_nd (helim.subset he) haa (hex.trans hax.symm)
      exact hne e he (by rw [hea])

theorem loop_elimGood (ballots : List Ballot) (pollOptions : List PollOption)
    (hid : (pollOptions.map (fun o => o.id)).Nodup)
    (htext : (pollOptions.map displayText).Nodup)
    (fuel : Nat) (active : List PollOption) (rounds : List Round) (n : Nat) (res : Result)
    (h : loop ballots pollOptions fuel active rounds n = some res)
    (hinv : ElimInv pollOptions active rounds) : ElimGood pollOptions res := by
  refine loop_induct ballots pollOptions
    (fun active rounds _ res => ElimInv pollOptions active rounds → ElimGood pollOptions res)
    ?_ ?_ ?_ fuel active rounds n res h hinv
  · intro active rounds n _ hinv
    obtain ⟨hsub, hnd, hall⟩ := hinv
    refine ⟨?_, ?_, ?_, ?_⟩
    · rw [finish_eliminated, finish_rounds]
    · rw [finish_eliminated]; exact hnd
    · rw [finish_eliminated]; exact fun x hx => (hall x hx).1
    · intro w hw
      obtain ⟨o, hact, hwid, hwtext⟩ := finish_winner ballots active rounds w hw
      refine ⟨o, hsub.subset (by rw [hact]; simp), hwid.symm, hwtext, ?_⟩
      rw [finish_eliminated]
      intro hmem
      exact (hall _ hmem).2 (by rw [hact]; simp)
  · intro active rounds n w _ hw hinv
    obtain ⟨hsub, hnd, hall⟩ := hinv
    obtain ⟨hwp, hwa, _, _⟩ := majorityWinner_sound ballots pollOptions active w hw
    have hflat : flattenEliminated
        (rounds ++ [winnerRound n active (countVotes ballots active) w])
        = flattenEliminated rounds := by
      rw [flattenEliminated_append]; simp [winnerRound]
    have hwactive : w ∈ active := by
      obtain ⟨o, ho, hoid⟩ := List.mem_map.mp hwa
      have : o = w := List.inj_on_of_nodup_map hid (hsub.subset ho) hwp hoid
      rw [← this]; exact ho
    refine ⟨?_, ?_, ?_, ?_⟩
    · rfl
    · simp only [winnerResult, hflat]; exact hnd
    · simp only [winnerResult, hflat]; exact fun x hx => (hall x hx).1
    · intro w' hw'
      simp only [winnerResult, Option.some.injEq] at hw'
      refine ⟨w, hwp, by rw [← hw'], by rw [← hw'], ?_⟩
      simp only [winnerResult, hflat]
      intro hmem
      exact (hall _ hmem).2 (List.mem_map_of_mem displayText hwactive)
  · intro active rounds n res _ _ ih hinv
    exact ih (elimInv_step ballots pollOptions active rounds n htext hinv)

/-! ## Dependence on the ballots -/

theorem finish_congr (b1 b2 : List Ballot)
    (hd : ∀ id, directCount b1 id = directCount b2 id)
    (active : List PollOption) (rounds : List Round) :
    finish b1 active rounds = finish b2 active rounds := by
  unfold finish
  split
  · rename_i o
    simp only [hd o.id]
  · rfl

/-- The loop reads the ballots only through the tally pass and the direct count. -/
theorem loop_congr (b1 b2 : List Ballot) (pollOptions : List PollOption)
    (hc : ∀ active, countVotes b1 active = countVotes b2 active)
    (hd : ∀ id, directCount b1 id = directCount b2 id) :
    ∀ fuel active rounds n,
      loop b1 pollOptions fuel active rounds n = loop b2 pollOptions fuel active rounds n := by
  intro fuel
  induction fuel with
  | zero =>
    intro active rounds n
    simp only [loop, finish_congr b1 b2 hd]
  | succ fuel ih =>
    intro active rounds n
    simp only [loop, hc active, finish_congr b1 b2 hd, ih]

theorem calculateInstantRunoff_congr (b1 b2 : List Ballot) (pollOptions : List PollOption)
    (hc : ∀ active, countVotes b1 active = countVotes b2 active)
    (hd : ∀ id, directCount b1 id = directCount b2 id) :
    calculateInstantRunoff b1 pollOptions = calculateInstantRunoff b2 pollOptions := by
  unfold calculateInstantRunoff
  simp only [hd, loop_congr b1 b2 pollOptions hc hd]

theorem castVote_of_no_rankings (active : List PollOption) (t : List (String × Nat))
    (b : Ballot) (hb : b.rankings = none ∨ b.rankings = some []) : castVote active t b = t := by
  have : firstActive active b = none := by
    unfold firstActive
    rcases hb with hb | hb <;> simp [hb]
  simp [castVote, this]

theorem firstChoiceIs_of_no_rankings (id : String) (b : Ballot)
    (hb : b.rankings = none ∨ b.rankings = some []) : firstChoiceIs id b = false := by
  unfold firstChoiceIs
  rcases hb with hb | hb <;> simp [hb]

/-! ## The elimination step, case by case -/

theorem minVotes_le_objGet0 (active : List PollOption) (t : List (String × Nat))
    (o : PollOption) (ho : o ∈ active) :
    minVotes (active.map (fun o => objGet0 t o.id)) ≤ objGet0 t o.id :=
  minVotes_le _ _ (List.mem_map.mpr ⟨o, ho, rfl⟩)

/-- Every option chosen for elimination has the minimal count. -/
theorem objGet0_of_mem_eliminatedOptions (active : List PollOption) (t : List (String × Nat))
    (e : PollOption) (he : e ∈ eliminatedOptions active t) :
    objGet0 t e.id = minVotes (active.map (fun o => objGet0 t o.id)) := by
  have hsub : (eliminatedOptions active t).Sublist (active.filter
      (fun o => objGet0 t o.id == minVotes (active.map (fun o => objGet0 t o.id)))) := by
    unfold eliminatedOptions
    simp only
    split
    · exact List.take_sublist _ _
    · exact List.Sublist.refl _
  have := (List.mem_filter.mp (hsub.subset he)).2
  simpa using this

theorem filter_length_ne_of_exists (active : List PollOption) (t : List (String × Nat))
    (h : ∃ o ∈ active, objGet0 t o.id ≠ minVotes (active.map (fun o => objGet0 t o.id))) :
    (active.filter
      (fun o => objGet0 t o.id == minVotes (active.map (fun o => objGet0 t o.id)))).length
      ≠ active.length := by
  intro hlen
  have hall := List.filter_eq_self.mp ((List.filter_sublist _).eq_of_length hlen)
  obtain ⟨o, ho, hne⟩ := h
  exact hne (by simpa using hall o ho)

/-- Without a full tie the options to eliminate are all the options with the
minimal count, in active order. -/
theorem eliminatedOptions_of_not_full_tie (active : List PollOption)
    (t : List (String × Nat))
    (h : ∃ o ∈ active, objGet0 t o.id ≠ minVotes (active.map (fun o => objGet0 t o.id))) :
    eliminatedOptions active t = active.filter
      (fun o => objGet0 t o.id == minVotes (active.map (fun o => objGet0 t o.id))) := by
  have hne := filter_length_ne_of_exists active t h
  unfold eliminatedOptions
  simp only
  rw [if_neg (fun hc => hne hc.1)]

/-- Without a full tie the options that stay active are those whose count is
strictly greater than the minimum. -/
theorem removeEliminated_of_not_full_tie (active : List PollOption)
    (t : List (String × Nat))
    (h : ∃ o ∈ active, objGet0 t o.id ≠ minVotes (active.map (fun o => objGet0 t o.id))) :
    removeEliminated active (eliminatedOptions active t) = active.filter
      (fun o => decide (minVotes (active.map (fun o => objGet0 t o.id)) < objGet0 t o.id)) := by
  unfold removeEliminated
  apply List.filter_congr
  intro o ho
  have hle := minVotes_le_objGet0 active t o ho
  by_cases heq : objGet0 t o.id = minVotes (active.map (fun o => objGet0 t o.id))
  · have hmem : o ∈ eliminatedOptions active t := by
      rw [eliminatedOptions_of_not_full_tie active t h]
      exact List.mem_filter.mpr ⟨ho, by simpa using heq⟩
    have hfind : ((eliminatedOptions active t).find? (fun eo => eo.id == o.id)).isSome = true := by
      rw [List.find?_isSome]
      exact ⟨o, hmem, by simp⟩
    rw [hfind]
    have : ¬ minVotes (active.map (fun o => objGet0 t o.id)) < objGet0 t o.id := by omega
    simp [this]
  · have hlt : minVotes (active.map (fun o => objGet0 t o.id)) < objGet0 t o.id := by omega
    cases hfind : (eliminatedOptions active t).find? (fun eo => eo.id == o.id) with
    | none => simp [hlt]
    | some e =>
      have he := List.mem_of_find?_eq_some hfind
      have hid := List.find?_some hfind
      simp only [beq_iff_eq] at hid
      have := objGet0_of_mem_eliminatedOptions active t e he
      rw [hid] at this
      exact absurd this heq

/-- With pairwise distinct identifiers an elimination round on two or more
options leaves at least one option active. -/
theorem removeEliminated_ne_nil (active : List PollOption) (t : List (String × Nat))
    (hid : (active.map (fun o => o.id)).Nodup) (hlen : 1 < active.length) :
    removeEliminated active (eliminatedOptions active t) ≠ [] := by
  by_cases h : ∃ o ∈ active, objGet0 t o.id ≠ minVotes (active.map (fun o => objGet0 t o.id))
  · rw [removeEliminated_of_not_full_tie active t h]
    obtain ⟨o, ho, hne⟩ := h
    have hle := minVotes_le_objGet0 active t o ho
    intro hnil
    have : o ∈ active.filter
        (fun o => decide (minVotes (active.map (fun o => objGet0 t o.id)) < objGet0 t o.id)) :=
      List.mem_filter.mpr ⟨ho, by simp; omega⟩
    rw [hnil] at this
    simp at this
  · have hall : ∀ o ∈ active,
        objGet0 t o.id = minVotes (active.map (fun o => objGet0 t o.id)) := by
      intro o ho
      by_contra hne
      exact h ⟨o, ho, hne⟩
    rw [eliminatedOptions_full_tie active t hlen
      (fun o ho o' ho' => (hall o ho).trans (hall o' ho').symm)]
    match active, hid, hlen with
    | a :: b :: rest, hid, _ =>
      intro hnil
      have hb : b ∈ removeEliminated (a :: b :: rest) ((a :: b :: rest).take 1) := by
        rw [mem_removeEliminated]
        refine ⟨by simp, ?_⟩
        intro e he
        simp only [List.take_succ_cons, List.take_zero, List.mem_singleton] at he
        subst he
        simp only [List.map_cons, List.nodup_cons, List.mem_cons, not_or] at hid
        exact hid.1.1
      rw [hnil] at hb
      simp at hb

/-! ## The shape of the recorded rounds -/

theorem loop_elimination_rounds (ballots : List Ballot) (pollOptions : List PollOption)
    (fuel : Nat) (active : List PollOption) (rounds : List Round) (n : Nat) (res : Result)
    (h : loop ballots pollOptions fuel active rounds n = some res)
    (hsub : active.Sublist pollOptions)
    (hprev : ∀ r ∈ rounds, r.winner = none →
      ∃ act, EliminationOf ballots pollOptions act r) :
    ∀ r ∈ res.rounds, r.winner = none → ∃ act, EliminationOf ballots pollOptions act r := by
  refine loop_induct ballots pollOptions
    (fun active rounds _ res => active.Sublist pollOptions →
      (∀ r ∈ rounds, r.winner = none → ∃ act, EliminationOf ballots pollOptions act r) →
      ∀ r ∈ res.rounds, r.winner = none → ∃ act, EliminationOf ballots pollOptions act r)
    ?_ ?_ ?_ fuel active rounds n res h hsub hprev
  · intro active rounds n _ _ hprev r hr
    rw [finish_rounds] at hr
    exact hprev r hr
  · intro active rounds n w _ _ _ hprev r hr hnone
    simp only [winnerResult, List.mem_append, List.mem_singleton] at hr
    rcases hr with hr | hr
    · exact hprev r hr hnone
    · rw [hr] at hnone
      simp [winnerRound] at hnone
  · intro active rounds n res hlen hmaj ih hsub hprev
    apply ih ((removeEliminated_sublist _ _).trans hsub)
    intro r hr hnone
    rcases List.mem_append.mp hr with hr | hr
    · exact hprev r hr hnone
    · rw [List.mem_singleton.mp hr]
      exact ⟨active, hsub, hlen, hmaj, rfl⟩

theorem loop_last_round (ballots : List Ballot) (pollOptions : List PollOption)
    (hid : (pollOptions.map (fun o => o.id)).Nodup)
    (fuel : Nat) (active : List PollOption) (rounds : List Round) (n : Nat) (res : Result)
    (h : loop ballots pollOptions fuel active rounds n = some res)
    (hinv : LastInv ballots pollOptions active rounds) :
    ∃ last, res.rounds.getLast? = some last ∧
      (MajorityRound ballots pollOptions res last ∨ LastStanding ballots pollOptions res last) := by
  refine loop_induct ballots pollOptions
    (fun active rounds _ res => LastInv ballots pollOptions active rounds →
      ∃ last, res.rounds.getLast? = some last ∧
        (MajorityRound ballots pollOptions res last ∨
          LastStanding ballots pollOptions res last))
    ?_ ?_ ?_ fuel active rounds n res h hinv
  · intro active rounds n hlen hinv
    obtain ⟨_, hcase⟩ := hinv
    rcases hcase with hcase | ⟨prev, activePrev, r, hrounds, helim, hactive⟩
    · exact absurd hcase hlen
    · have hne : active ≠ [] := by
        rw [hactive]
        exact removeEliminated_ne_nil activePrev _
          ((helim.1.map (fun o => o.id)).nodup hid) helim.2.1
      obtain ⟨o, ho⟩ : ∃ o, active = [o] := by
        match active, hne, hlen with
        | [o], _, _ => exact ⟨o, rfl⟩
        | _ :: _ :: _, _, hlen => simp at hlen
      refine ⟨r, by rw [finish_rounds, hrounds]; simp, Or.inr ⟨activePrev, o, helim, ?_, ?_⟩⟩
      · rw [← hactive, ho]
      · rw [ho, hrounds]
        simp [finish]
  · intro active rounds n w _ hw hinv
    obtain ⟨hwp, _, hlook, hmaj⟩ := majorityWinner_sound ballots pollOptions active w hw
    refine ⟨winnerRound n active (countVotes ballots active) w, by simp [winnerResult],
      Or.inl ⟨active, w, hinv.1, hwp, rfl, rfl, hlook,
        totalVotes_countVotes ballots active, hmaj, ?_⟩⟩
    simp only [winnerResult, hlook, VoteCount.ofLookup]
  · intro active rounds n res hlen hmaj ih hinv
    exact ih ⟨(removeEliminated_sublist _ _).trans hinv.1,
      Or.inr ⟨rounds, active, _, rfl, ⟨hinv.1, hlen, hmaj, rfl⟩, rfl⟩⟩

/-! ## Counts in the last round -/

theorem mem_formatTallies_countVotes (ballots : List Ballot) (active : List PollOption)
    (htext : (active.map displayText).Nodup) (hproto : "__proto__" ∉ active.map displayText)
    (kv : String × Nat)
    (hkv : kv ∈ formatTallies active (countVotes ballots active)) :
    ∃ o ∈ active, kv = (displayText o, votesFor ballots active o.id) := by
  rw [(formatTallies_perm active _ htext hproto).mem_iff] at hkv
  obtain ⟨o, ho, hkv⟩ := List.mem_map.mp hkv
  exact ⟨o, ho, by rw [← hkv, objGet0_countVotes]⟩

theorem lookup_formatTallies_countVotes (ballots : List Ballot) (active : List PollOption)
    (htext : (active.map displayText).Nodup) (hproto : "__proto__" ∉ active.map displayText)
    (o : PollOption) (ho : o ∈ active) :
    (formatTallies active (countVotes ballots active)).lookup (displayText o)
      = some (votesFor ballots active o.id) := by
  have hperm := formatTallies_perm active (countVotes ballots active) htext hproto
  have hkeys : ((formatTallies active (countVotes ballots active)).map Prod.fst).Nodup := by
    rw [(hperm.map Prod.fst).nodup_iff, List.map_map]
    exact htext
  have := lookup_of_mem_of_nodup _ hkeys
    (displayText o, objGet0 (countVotes ballots active) o.id)
    (hperm.mem_iff.mpr (List.mem_map.mpr ⟨o, ho, rfl⟩))
  rw [objGet0_countVotes] at this
  exact this

theorem mem_active_of_votesFor_pos (ballots : List Ballot) (active : List PollOption)
    (k : String) (h : 0 < votesFor ballots active k) : k ∈ active.map (fun o => o.id) := by
  unfold votesFor at h
  rw [List.countP_pos_iff] at h
  obtain ⟨b, _, hb⟩ := h
  exact firstActive_mem active b k (by simpa using hb)

/-- A count that exceeds half of the round's total is at least every other count. -/
theorem votesFor_le_of_majority (ballots : List Ballot) (active : List PollOption)
    (k k' : String) (hk' : k' ∈ active.map (fun o => o.id))
    (hmaj : votersCount ballots active < 2 * votesFor ballots active k) :
    votesFor ballots active k' ≤ votesFor ballots active k := by
  have hk : k ∈ active.map (fun o => o.id) :=
    mem_active_of_votesFor_pos ballots active k (by omega)
  by_cases heq : k' = k
  · rw [heq]
  · have h1 := mem_countVotes_of_mem ballots active k hk
    have h2 := mem_countVotes_of_mem ballots active k' hk'
    have hne : (k', votesFor ballots active k') ≠ (k, votesFor ballots active k) := by
      intro e
      exact heq (congrArg Prod.fst e)
    have hsum := add_le_sum_of_mem_ne _ _ _ h2 h1 hne
    rw [← totalVotes_eq_sum, totalVotes_countVotes] at hsum
    simp only at hsum
    omega

/-- When an elimination round leaves a single option, no active option of that
round had a greater count. -/
theorem sole_survivor_ge (active : List PollOption) (t : List (String × Nat))
    (o : PollOption) (h : removeEliminated active (eliminatedOptions active t) = [o])
    (o' : PollOption) (ho' : o' ∈ active) : objGet0 t o'.id ≤ objGet0 t o.id := by
  have ho : o ∈ active :=
    (removeEliminated_sublist _ _).subset (by rw [h]; simp)
  by_cases hmem : o' ∈ removeEliminated active (eliminatedOptions active t)
  · rw [h] at hmem
    rw [List.mem_singleton.mp hmem]
  · rw [mem_removeEliminated] at hmem
    have : ∃ e ∈ eliminatedOptions active t, e.id = o'.id := by
      by_contra hc
      exact hmem ⟨ho', fun e he heq => hc ⟨e, he, heq⟩⟩
    obtain ⟨e, he, heq⟩ := this
    have hmin := objGet0_of_mem_eliminatedOptions active t e he
    rw [heq] at hmin
    rw [hmin]
    exact minVotes_le_objGet0 active t o ho

/-! ## What the engine reads of a ballot -/

theorem sortedRankings_nil : sortedRankings [] = [] := rfl

theorem firstActive_eq_find_sortedIds (active : List PollOption) (b : Ballot) :
    firstActive active b =
      (sortedIds b).find? (fun k => (active.find? (fun o => o.id == k)).isSome) := by
  unfold firstActive sortedIds
  cases b.rankings with
  | none => rfl
  | some rs =>
    simp only
    rw [List.find?_map]
    cases rs with
    | nil => rfl
    | cons a l => rw [if_pos (by simp)]; rfl

theorem firstChoiceIs_eq_head_sortedIds (id : String) (b : Ballot) :
    firstChoiceIs id b = ((sortedIds b).head? == some id) := by
  unfold firstChoiceIs sortedIds
  cases b.rankings with
  | none => rfl
  | some rs =>
    simp only
    cases rs with
    | nil => rfl
    | cons a l =>
      rw [if_pos (by simp), List.head?_map]
      cases (sortedRankings (a :: l)).head? with
      | none => rfl
      | some r => simp

theorem castVote_congr (active : List PollOption) (t : List (String × Nat)) (b b' : Ballot)
    (h : firstActive active b = firstActive active b') :
    castVote active t b = castVote active t b' := by
  unfold castVote
  rw [h]

/-- Two ballot lists whose ballots, taken in order, cast the same vote give the
same tally dictionary. -/
theorem countVotes_congr_forall₂ (active : List PollOption) (bs bs' : List Ballot)
    (h : List.Forall₂ (fun b b' => firstActive active b = firstActive active b') bs bs') :
    countVotes bs active = countVotes bs' active := by
  unfold countVotes
  generalize initTallies active = t0
  induction h generalizing t0 with
  | nil => rfl
  | cons hb _ ih =>
    simp only [List.foldl_cons]
    rw [castVote_congr active t0 _ _ hb]
    exact ih _

theorem directCount_congr_forall₂ (id : String) (bs bs' : List Ballot)
    (h : List.Forall₂ (fun b b' => firstChoiceIs id b = firstChoiceIs id b') bs bs') :
    directCount bs id = directCount bs' id := by
  unfold directCount
  generalize (0 : Nat) = c
  induction h generalizing c with
  | nil => rfl
  | cons hb _ ih =>
    simp only [List.foldl_cons]
    rw [hb]
    exact ih _

theorem finish_congr_of_rounds (b1 b2 : List Ballot) (active : List PollOption)
    (rounds : List Round) (h : rounds ≠ []) :
    finish b1 active rounds = finish b2 active rounds := by
  unfold finish
  cases hlast : rounds.getLast? with
  | none => exact absurd (List.getLast?_eq_none_iff.mp hlast) h
  | some r => rfl

/-- Once a round is recorded or two options are active, the loop reads the
ballots only through the tally pass on sublists of the options. -/
theorem loop_congr_sub (b1 b2 : List Ballot) (pollOptions : List PollOption)
    (hc : ∀ active : List PollOption, active.Sublist pollOptions →
      countVotes b1 active = countVotes b2 active) :
    ∀ fuel active rounds n, active.Sublist pollOptions → (1 < active.length ∨ rounds ≠ []) →
      loop b1 pollOptions fuel active rounds n = loop b2 pollOptions fuel active rounds n := by
  intro fuel
  induction fuel with
  | zero =>
    intro active rounds n _ hcase
    rw [loop_zero, loop_zero]
    split
    · rfl
    · rename_i hlen
      rw [finish_congr_of_rounds b1 b2 active rounds (hcase.resolve_left hlen)]
  | succ fuel ih =>
    intro active rounds n hsub hcase
    by_cases hlen : 1 < active.length
    · cases hw : majorityWinner pollOptions (countVotes b2 active) with
      | some w =>
        rw [loop_won b2 pollOptions active rounds n fuel w hlen hw,
          loop_won b1 pollOptions active rounds n fuel w hlen (by rw [hc active hsub]; exact hw),
          hc active hsub]
      | none =>
        rw [loop_eliminate b2 pollOptions active rounds n fuel hlen hw,
          loop_eliminate b1 pollOptions active rounds n fuel hlen
            (by rw [hc active hsub]; exact hw),
          hc active hsub]
        split
        · rw [finish_congr_of_rounds b1 b2 _ _ (by simp)]
        · exact ih _ _ _ ((removeEliminated_sublist _ _).trans hsub) (Or.inr (by simp))
    · rw [loop_done b1 pollOptions active rounds n (fuel + 1) hlen,
        loop_done b2 pollOptions active rounds n (fuel + 1) hlen,
        finish_congr_of_rounds b1 b2 active rounds (hcase.resolve_left hlen)]

/-! ## The tally dictionary in closed form -/

theorem eq_of_map_fst_of_map_snd (l1 l2 : List (String × Nat))
    (h1 : l1.map Prod.fst = l2.map Prod.fst) (h2 : l1.map Prod.snd = l2.map Prod.snd) :
    l1 = l2 := by
  induction l1 generalizing l2 with
  | nil =>
    cases l2 with
    | nil => rfl
    | cons _ _ => simp at h1
  | cons a l ih =>
    cases l2 with
    | nil => simp at h1
    | cons b m =>
      simp only [List.map_cons, List.cons.injEq] at h1 h2
      rw [ih m h1.2 h2.2, Prod.ext h1.1 h2.1]

/-- The tally dictionary has the keys of the initial dictionary, in the same
order, each with the number of ballots voting for it. -/
theorem countVotes_canonical (ballots : List Ballot) (active : List PollOption) :
    countVotes ballots active =
      (initTallies active).map (fun kv => (kv.1, votesFor ballots active kv.1)) := by
  apply eq_of_map_fst_of_map_snd
  · rw [keys_countVotes, List.map_map]
    rfl
  · rw [values_eq_map_keys _ (nodup_keys_countVotes ballots active), keys_countVotes,
      List.map_map, List.map_map]
    apply List.map_congr_left
    intro kv _
    exact objGet0_countVotes ballots active kv.1

theorem countVotes_congr_votesFor (b1 b2 : List Ballot) (active : List PollOption)
    (h : ∀ k, votesFor b1 active k = votesFor b2 active k) :
    countVotes b1 active = countVotes b2 active := by
  rw [countVotes_canonical b1, countVotes_canonical b2]
  apply List.map_congr_left
  intro kv _
  rw [h kv.1]

/-! ## The sorted copy of a ranking list -/

theorem rankLe_total : IsTotal Ranking (fun a b => a.rank ≤ b.rank) :=
  ⟨fun a b => le_total a.rank b.rank⟩

theorem rankLe_trans : IsTrans Ranking (fun a b => a.rank ≤ b.rank) :=
  ⟨fun _ _ _ h1 h2 => le_trans h1 h2⟩

theorem rankLt_antisymm : IsAntisymm Ranking (fun a b => a.rank < b.rank) :=
  ⟨fun _ _ h1 h2 => absurd h1 (not_lt.mpr (le_of_lt h2))⟩

theorem sorted_sortedRankings (rs : List Ranking) :
    (sortedRankings rs).Pairwise (fun a b => a.rank ≤ b.rank) :=
  @List.sorted_insertionSort Ranking (fun a b => a.rank ≤ b.rank) _ rankLe_total rankLe_trans rs

theorem perm_sortedRankings (rs : List Ranking) : (sortedRankings rs).Perm rs :=
  List.perm_insertionSort _ rs

theorem strictly_sorted_sortedRankings (rs : List Ranking)
    (hnd : (rs.map (fun r => r.rank)).Nodup) :
    (sortedRankings rs).Pairwise (fun a b => a.rank < b.rank) := by
  have hnd' : ((sortedRankings rs).map (fun r => r.rank)).Nodup :=
    ((perm_sortedRankings rs).map _).nodup_iff.mpr hnd
  have hne : (sortedRankings rs).Pairwise (fun a b => a.rank ≠ b.rank) :=
    List.pairwise_map.mp hnd'
  exact ((sorted_sortedRankings rs).and hne).imp (fun h => lt_of_le_of_ne h.1 h.2)

/-- With pairwise distinct ranks the sorted copy does not depend on the order in
which the rankings are listed. -/
theorem sortedRankings_eq_of_perm (rs1 rs2 : List Ranking) (hp : rs1.Perm rs2)
    (hnd : (rs1.map (fun r => r.rank)).Nodup) : sortedRankings rs1 = sortedRankings rs2 := by
  have hnd2 : (rs2.map (fun r => r.rank)).Nodup := (hp.map _).nodup_iff.mp hnd
  have hperm : (sortedRankings rs1).Perm (sortedRankings rs2) :=
    (perm_sortedRankings rs1).trans (hp.trans (perm_sortedRankings rs2).symm)
  exact @List.eq_of_perm_of_sorted Ranking (fun a b => a.rank < b.rank) rankLt_antisymm _ _ hperm
    (strictly_sorted_sortedRankings rs1 hnd) (strictly_sorted_sortedRankings rs2 hnd2)

/-- Replacing the ranks through a map that is strictly increasing on them
commutes with sorting. -/
theorem sortedRankings_map_reRank (g : Int → Int) (rs : List Ranking)
    (hg : ∀ x ∈ rs, ∀ y ∈ rs, x.rank < y.rank → g x.rank < g y.rank) :
    sortedRankings (rs.map (reRank g)) = (sortedRankings rs).map (reRank g) := by
  unfold sortedRankings
  symm
  apply List.map_insertionSort
  intro a ha b hb
  simp only [reRank]
  constructor
  · intro hle
    rcases lt_or_eq_of_le hle with hlt | heq
    · exact le_of_lt (hg a ha b hb hlt)
    · rw [heq]
  · intro hle
    by_contra hnot
    have := hg b hb a ha (not_le.mp hnot)
    omega

theorem nodup_ranks_map_reRank (g : Int → Int) (rs : List Ranking)
    (hg : ∀ x ∈ rs, ∀ y ∈ rs, x.rank < y.rank → g x.rank < g y.rank)
    (hnd : (rs.map (fun r => r.rank)).Nodup) :
    ((rs.map (reRank g)).map (fun r => r.rank)).Nodup := by
  have : (rs.map (reRank g)).map (fun r => r.rank) = (rs.map (fun r => r.rank)).map g := by
    rw [List.map_map, List.map_map]
    rfl
  rw [this]
  apply List.Nodup.map_on _ hnd
  intro x hx y hy hxy
  obtain ⟨a, ha, rfl⟩ := List.mem_map.mp hx
  obtain ⟨b, hb, rfl⟩ := List.mem_map.mp hy
  by_contra hne
  rcases lt_or_gt_of_ne hne with hlt | hgt
  · have := hg a ha b hb hlt
    omega
  · have := hg b hb a ha hgt
    omega

/-- Ballots that differ only in the values of their ranks and in the listing
order of their rankings rank the same identifiers in the same order. -/
theorem sortedIds_of_sameRankOrder (b b' : Ballot) (h : SameRankOrder b b') :
    sortedIds b' = sortedIds b := by
  unfold SameRankOrder at h
  unfold sortedIds
  cases hb : b.rankings with
  | none =>
    cases hb' : b'.rankings with
    | none => rfl
    | some rs' => simp [hb, hb'] at h
  | some rs =>
    cases hb' : b'.rankings with
    | none => simp [hb, hb'] at h
    | some rs' =>
      simp only [hb, hb'] at h
      obtain ⟨hnd, g, hg, hperm⟩ := h
      simp only
      rw [← sortedRankings_eq_of_perm (rs.map (reRank g)) rs' hperm.symm
        (nodup_ranks_map_reRank g rs hg hnd), sortedRankings_map_reRank g rs hg, List.map_map]
      rfl

/-! ## Sorting and filtering -/

theorem orderedInsert_of_forall_le (a : Ranking) (l : List Ranking)
    (h : ∀ x ∈ l, a.rank ≤ x.rank) :
    l.orderedInsert (fun a b => a.rank ≤ b.rank) a = a :: l := by
  cases l with
  | nil => rfl
  | cons b m =>
    rw [List.orderedInsert, if_pos (h b (List.mem_cons_self _ _))]

theorem filter_orderedInsert_of_neg (p : Ranking → Bool) (a : Ranking) (l : List Ranking)
    (hp : p a = false) :
    (l.orderedInsert (fun a b => a.rank ≤ b.rank) a).filter p = l.filter p := by
  induction l with
  | nil => simp [hp]
  | cons b m ih =>
    rw [List.orderedInsert]
    split
    · rw [List.filter_cons_of_neg (by simp [hp])]
    · rw [List.filter_cons, List.filter_cons, ih]

theorem filter_orderedInsert_of_pos (p : Ranking → Bool) (a : Ranking) (l : List Ranking)
    (hp : p a = true) (hs : l.Pairwise (fun a b => a.rank ≤ b.rank)) :
    (l.orderedInsert (fun a b => a.rank ≤ b.rank) a).filter p
      = (l.filter p).orderedInsert (fun a b => a.rank ≤ b.rank) a := by
  induction l with
  | nil => simp [hp]
  | cons b m ih =>
    obtain ⟨hb, hm⟩ := List.pairwise_cons.mp hs
    rw [List.orderedInsert]
    by_cases hab : a.rank ≤ b.rank
    · rw [if_pos hab, List.filter_cons_of_pos hp]
      symm
      apply orderedInsert_of_forall_le
      intro x hx
      have hx' := (List.mem_filter.mp hx).1
      rcases List.mem_cons.mp hx' with hx' | hx'
      · rw [hx']; exact hab
      · exact le_trans hab (hb x hx')
    · rw [if_neg hab]
      by_cases hpb : p b = true
      · rw [List.filter_cons_of_pos hpb, List.filter_cons_of_pos hpb, ih hm,
          List.orderedInsert, if_neg hab]
      · rw [List.filter_cons_of_neg hpb, List.filter_cons_of_neg hpb, ih hm]

/-- The sort is stable, so deleting rankings before sorting gives the sorted
copy with the same rankings deleted. -/
theorem filter_sortedRankings (p : Ranking → Bool) (rs : List Ranking) :
    (sortedRankings rs).filter p = sortedRankings (rs.filter p) := by
  induction rs with
  | nil => rfl
  | cons a l ih =>
    have hsorted := sorted_sortedRankings l
    unfold sortedRankings at ih hsorted ⊢
    rw [List.insertionSort]
    by_cases hp : p a = true
    · rw [filter_orderedInsert_of_pos p a _ hp hsorted, ih, List.filter_cons_of_pos hp,
        List.insertionSort]
    · rw [filter_orderedInsert_of_neg p a _ (by simpa using hp), ih,
        List.filter_cons_of_neg hp]

theorem sortedIds_stripUnknown (options : List PollOption) (b : Ballot) :
    sortedIds (stripUnknown options b)
      = (sortedIds b).filter (fun k => options.any (fun o => o.id == k)) := by
  unfold sortedIds stripUnknown
  cases b.rankings with
  | none => rfl
  | some rs =>
    simp only [Option.map_some']
    rw [← filter_sortedRankings, List.filter_map]
    rfl

theorem find?_filter_of_imp (P Q : String → Bool) (l : List String)
    (h : ∀ k, P k = true → Q k = true) : (l.filter Q).find? P = l.find? P := by
  induction l with
  | nil => rfl
  | cons k m ih =>
    by_cases hQ : Q k = true
    · rw [List.filter_cons_of_pos hQ, List.find?_cons, List.find?_cons, ih]
    · have hP : P k = false := by
        cases hPk : P k with
        | false => rfl
        | true => exact absurd (h k hPk) hQ
      rw [List.filter_cons_of_neg hQ, List.find?_cons, hP, ih]

/-- In a round on a sublist of the options a ballot votes as it does without its
rankings of unknown options. -/
theorem firstActive_stripUnknown (pollOptions active : List PollOption)
    (hsub : active.Sublist pollOptions) (b : Ballot) :
    firstActive active (stripUnknown pollOptions b) = firstActive active b := by
  rw [firstActive_eq_find_sortedIds, firstActive_eq_find_sortedIds, sortedIds_stripUnknown]
  apply find?_filter_of_imp
  intro k hk
  rw [List.find?_isSome] at hk
  obtain ⟨o, ho, hid⟩ := hk
  rw [List.any_eq_true]
  exact ⟨o, hsub.subset ho, hid⟩

theorem firstActive_of_no_rankings (active : List PollOption) (b : Ballot)
    (hb : b.rankings = none ∨ b.rankings = some []) : firstActive active b = none := by
  unfold firstActive
  rcases hb with hb | hb <;> simp [hb]

theorem stripUnknown_of_all_unknown (options : List PollOption) (b : Ballot)
    (h : ∀ rs, b.rankings = some rs → ∀ r ∈ rs, knownOption options r = false) :
    (stripUnknown options b).rankings = none ∨ (stripUnknown options b).rankings = some [] := by
  unfold stripUnknown
  cases hb : b.rankings with
  | none => exact Or.inl rfl
  | some rs =>
    right
    simp only [Option.map_some', Option.some.injEq, List.filter_eq_nil_iff]
    intro r hr
    simp [h rs hb r hr]

theorem calculateInstantRunoff_congr_sub (b1 b2 : List Ballot) (pollOptions : List PollOption)
    (h2 : 2 ≤ pollOptions.length)
    (hc : ∀ active : List PollOption, active.Sublist pollOptions →
      countVotes b1 active = countVotes b2 active) :
    calculateInstantRunoff b1 pollOptions = calculateInstantRunoff b2 pollOptions := by
  rw [calculateInstantRunoff_eq_loop b1 pollOptions h2,
    calculateInstantRunoff_eq_loop b2 pollOptions h2]
  exact loop_congr_sub b1 b2 pollOptions hc _ _ _ _ (List.Sublist.refl _) (Or.inl (by omega))

/-! ## Option texts other than `__proto__` -/

theorem not_proto_of_sublist (pollOptions active : List PollOption)
    (hsub : active.Sublist pollOptions)
    (hproto : "__proto__" ∉ pollOptions.map displayText) :
    "__proto__" ∉ active.map displayText :=
  fun h => hproto ((hsub.map displayText).subset h)

theorem textGet0_of_lookup (t : List (String × Nat)) (k : String) (v : Nat)
    (hk : k ≠ "__proto__") (h : t.lookup k = some v) :
    textGet0 t k = VoteCount.number v := by
  simp [textGet0, hk, h]

/-- When no display text is `__proto__` (and identifiers and display texts are
pairwise distinct), the tallies recorded in round 1 sum to the number of ballots
that have at least one ranking whose `pollOptionId` is in the option set. -/
theorem round_one_conservation_of_ordinary_texts (ballots : List Ballot)
    (pollOptions : List PollOption)
    (h2 : 2 ≤ pollOptions.length) (hid : (pollOptions.map (fun o => o.id)).Nodup)
    (htext : (pollOptions.map displayText).Nodup)
    (hproto : "__proto__" ∉ pollOptions.map displayText) :
    ∃ res r, calculateInstantRunoff ballots pollOptions = some res ∧
      res.rounds.head? = some r ∧ r.roundNumber = 1 ∧
      (r.tallies.map Prod.snd).sum = ballots.countP (ranksSomeOption pollOptions) := by
  obtain ⟨res, hres⟩ := calculateInstantRunoff_returns ballots pollOptions
  have hloop := hres
  rw [calculateInstantRunoff_eq_loop ballots pollOptions h2] at hloop
  obtain ⟨r, hpre, hnum, htal⟩ :=
    (loop_first_round ballots pollOptions _ _ _ _ _ hloop).2 (by omega)
  refine ⟨res, r, hres, ?_, hnum, ?_⟩
  · obtain ⟨rest, hrest⟩ := hpre
    rw [← hrest]
    rfl
  · rw [htal, sum_formatTallies_countVotes ballots pollOptions hid htext hproto,
      votersCount_eq_countP]

/-- When no display text is `__proto__` (and identifiers and display texts are
pairwise distinct), a last round without a winner is an elimination round that
leaves one option `o`; `o` is the winner and its `finalVoteCount` is the number
the last round's tallies hold for its display text, the number of ballots voting
for `o` in that round. -/
theorem last_option_standing_count_of_ordinary_texts (ballots : List Ballot)
    (pollOptions : List PollOption)
    (h2 : 2 ≤ pollOptions.length) (hid : (pollOptions.map (fun o => o.id)).Nodup)
    (htext : (pollOptions.map displayText).Nodup)
    (hproto : "__proto__" ∉ pollOptions.map displayText) :
    ∃ res last, calculateInstantRunoff ballots pollOptions = some res ∧
      res.rounds.getLast? = some last ∧
      (last.winner = none →
        ∃ active o v, active.Sublist pollOptions ∧
          last = eliminationRound last.roundNumber active (countVotes ballots active) ∧
          removeEliminated active (eliminatedOptions active (countVotes ballots active)) = [o] ∧
          res.winner = some
            { id := o.id, optionText := winnerText o
              finalVoteCount := VoteCount.number v } ∧
          last.tallies.lookup (displayText o) = some v ∧
          v = votesFor ballots active o.id) := by
  obtain ⟨res, hres⟩ := calculateInstantRunoff_returns ballots pollOptions
  have hloop := hres
  rw [calculateInstantRunoff_eq_loop ballots pollOptions h2] at hloop
  obtain ⟨last, hlast, hcase⟩ := loop_last_round ballots pollOptions hid _ _ _ _ _ hloop
    ⟨List.Sublist.refl _, Or.inl (by omega)⟩
  refine ⟨res, last, hres, hlast, ?_⟩
  intro hnone
  rcases hcase with ⟨_, _, _, _, hwin, _⟩ | ⟨active, o, helim, hsurv, hwin⟩
  · rw [hnone] at hwin
    exact absurd hwin (by simp)
  · have ho : o ∈ active := (removeEliminated_sublist _ _).subset (by rw [hsurv]; simp)
    have hnp := not_proto_of_sublist pollOptions active helim.1 hproto
    have hne : displayText o ≠ "__proto__" :=
      fun e => hnp (e ▸ List.mem_map_of_mem displayText ho)
    have htal : last.tallies = formatTallies active (countVotes ballots active) := by
      rw [helim.2.2.2]; rfl
    have hlook := lookup_formatTallies_countVotes ballots active
      ((helim.1.map displayText).nodup htext) hnp o ho
    refine ⟨active, o, votesFor ballots active o.id, helim.1, helim.2.2.2, hsurv, ?_,
      by rw [htal]; exact hlook, rfl⟩
    rw [hwin, htal, textGet0_of_lookup _ _ _ hne hlook]

/-- When no display text is `__proto__` (and identifiers and display texts are
pairwise distinct), the winner's `finalVoteCount` is a number that is at least
every count recorded in the last round's tallies. -/
theorem winner_leads_final_round_of_ordinary_texts (ballots : List Ballot)
    (pollOptions : List PollOption)
    (h2 : 2 ≤ pollOptions.length) (hid : (pollOptions.map (fun o => o.id)).Nodup)
    (htext : (pollOptions.map displayText).Nodup)
    (hproto : "__proto__" ∉ pollOptions.map displayText) :
    ∃ res last w v, calculateInstantRunoff ballots pollOptions = some res ∧
      res.rounds.getLast? = some last ∧ res.winner = some w ∧
      w.finalVoteCount = VoteCount.number v ∧ ∀ kv ∈ last.tallies, kv.2 ≤ v := by
  obtain ⟨res, hres⟩ := calculateInstantRunoff_returns ballots pollOptions
  have hloop := hres
  rw [calculateInstantRunoff_eq_loop ballots pollOptions h2] at hloop
  obtain ⟨last, hlast, hcase⟩ := loop_last_round ballots pollOptions hid _ _ _ _ _ hloop
    ⟨List.Sublist.refl _, Or.inl (by omega)⟩
  rcases hcase with ⟨active, w, hsub, _, _, htal, _, _, hmaj, hwin⟩ |
    ⟨active, o, helim, hsurv, hwin⟩
  · refine ⟨res, last, _, votesFor ballots active w.id, hres, hlast, hwin, rfl, ?_⟩
    intro kv hkv
    rw [htal] at hkv
    obtain ⟨o, ho, hkv⟩ := mem_formatTallies_countVotes ballots active
      ((hsub.map displayText).nodup htext)
      (not_proto_of_sublist pollOptions active hsub hproto) kv hkv
    rw [hkv]
    exact votesFor_le_of_majority ballots active w.id o.id
      (List.mem_map_of_mem (fun o => o.id) ho) hmaj
  · have ho : o ∈ active := (removeEliminated_sublist _ _).subset (by rw [hsurv]; simp)
    have hnp := not_proto_of_sublist pollOptions active helim.1 hproto
    have hne : displayText o ≠ "__proto__" :=
      fun e => hnp (e ▸ List.mem_map_of_mem displayText ho)
    have htal : last.tallies = formatTallies active (countVotes ballots active) := by
      rw [helim.2.2.2]; rfl
    have hlook := lookup_formatTallies_countVotes ballots active
      ((helim.1.map displayText).nodup htext) hnp o ho
    refine ⟨res, last, _, votesFor ballots active o.id, hres, hlast, hwin, ?_, ?_⟩
    · rw [htal, textGet0_of_lookup _ _ _ hne hlook]
    · intro kv hkv
      rw [htal] at hkv
      obtain ⟨o', ho', hkv⟩ := mem_formatTallies_countVotes ballots active
        ((helim.1.map displayText).nodup htext) hnp kv hkv
      rw [hkv]
      have := sole_survivor_ge active (countVotes ballots active) o hsurv o' ho'
      simpa only [objGet0_countVotes] using this

/-! ## Claims -/

/-- C1 (the code departs from the claim): on three options with one first
choice each, round 1 is a full tie and the code eliminates only the first option
`A`; the options `B` and `C` both stay active, round 2 is again a full tie and
eliminates `B`, and `C` wins. The claim wants `A` alone to survive round 1. -/
theorem full_tie_eliminates_only_first_option :
    calculateInstantRunoff tieBallots [optA, optB, optC] = some
      { winner := some { id := "c", optionText := some "C", finalVoteCount := VoteCount.number 1 }
        rounds :=
          [{ roundNumber := 1, tallies := [("A", 1), ("B", 1), ("C", 1)], winner := none
             finalVoteCount := none, eliminated := some ["A"] },
           { roundNumber := 2, tallies := [("B", 1), ("C", 1)], winner := none
             finalVoteCount := none, eliminated := some ["B"] }]
        eliminated := ["A", "B"] } ∧
    removeEliminated [optA, optB, optC]
      (eliminatedOptions [optA, optB, optC] (countVotes tieBallots [optA, optB, optC]))
      = [optB, optC] := by
  decide

/-- C2 (the code departs from the claim): on the specification's scenario
(options A, B, C; ballots 3x[A,B,C], 2x[B,A,C], 1x[C,B,A]) round 1 eliminates C,
round 2 is the two-way tie A:3, B:3, and the code eliminates A and returns B as
winner with 3 votes after 2 rounds. The claim wants A. -/
theorem two_way_tie_scenario_winner :
    calculateInstantRunoff scenarioBallots [optA, optB, optC] = some
      { winner := some { id := "b", optionText := some "B", finalVoteCount := VoteCount.number 3 }
        rounds :=
          [{ roundNumber := 1, tallies := [("A", 3), ("B", 2), ("C", 1)], winner := none
             finalVoteCount := none, eliminated := some ["C"] },
           { roundNumber := 2, tallies := [("A", 3), ("B", 3)], winner := none
             finalVoteCount := none, eliminated := some ["A"] }]
        eliminated := ["C", "A"] } := by
  decide

/-- C3: the engine returns a result in which every round that records a winner
is the tally of some sublist `active` of the options, its `finalVoteCount` is the
number of ballots voting for the winner in that round, twice that number exceeds
the total number of votes tallied in the round, and the result's winner carries
the same count. In particular a two-way split with equal counts has no majority
winner. -/
theorem majority_soundness (ballots : List Ballot) (pollOptions : List PollOption) :
    (∃ res, calculateInstantRunoff ballots pollOptions = some res ∧
      ∀ r ∈ res.rounds, r.winner ≠ none →
        ∃ active w, active.Sublist pollOptions ∧ w ∈ pollOptions ∧
          r.winner = some (displayText w) ∧
          r.tallies = formatTallies active (countVotes ballots active) ∧
          r.finalVoteCount = some (votesFor ballots active w.id) ∧
          totalVotes (countVotes ballots active) = votersCount ballots active ∧
          votersCount ballots active < 2 * votesFor ballots active w.id ∧
          res.winner = some
            { id := w.id, optionText := winnerText w
              finalVoteCount := VoteCount.number (votesFor ballots active w.id) }) ∧
    (∀ x y : PollOption, x.id ≠ y.id →
      votesFor ballots [x, y] x.id = votesFor ballots [x, y] y.id →
      majorityWinner pollOptions (countVotes ballots [x, y]) = none) := by
  constructor
  · obtain ⟨res, hres⟩ := calculateInstantRunoff_returns ballots pollOptions
    refine ⟨res, hres, ?_⟩
    by_cases h2 : 2 ≤ pollOptions.length
    · rw [calculateInstantRunoff_eq_loop ballots pollOptions h2] at hres
      exact loop_winner_rounds ballots pollOptions _ _ _ _ _ hres (List.Sublist.refl _)
        (by simp)
    · intro r hr
      unfold calculateInstantRunoff at hres
      split at hres
      · cases pollOptions with
        | nil => simp at hres
        | cons o rest =>
          simp only [List.head?_cons, Option.some.injEq] at hres
          rw [← hres] at hr
          simp at hr
      · split at hres
        · simp only [Option.some.injEq] at hres
          rw [← hres] at hr
          simp at hr
        · omega
  · intro x y hxy heq
    apply majorityWinner_none
    have hsum := votersCount_eq_sum ballots [x, y] (by simpa using hxy)
    simp only [List.map_cons, List.map_nil, List.sum_cons, List.sum_nil] at hsum
    intro k hk
    simp only [List.map_cons, List.map_nil, List.mem_cons, List.mem_singleton,
      List.not_mem_nil, or_false] at hk
    rcases hk with hk | hk <;> subst hk <;> omega

/-- C4: with two or more options of pairwise distinct identifiers, an option that
is the first active preference of more than half of the voting ballots in round 1
is returned as winner after exactly one round; that round records the winner and
no eliminations, `finalVoteCount` is the option's round-1 tally, and the result's
`eliminated` list is empty. -/
theorem immediate_majority (ballots : List Ballot) (pollOptions : List PollOption)
    (w : PollOption) (h2 : 2 ≤ pollOptions.length)
    (hid : (pollOptions.map (fun o => o.id)).Nodup) (hw : w ∈ pollOptions)
    (hmaj : votersCount ballots pollOptions < 2 * votesFor ballots pollOptions w.id) :
    calculateInstantRunoff ballots pollOptions = some
      { winner := some
          { id := w.id, optionText := winnerText w
            finalVoteCount := VoteCount.number (votesFor ballots pollOptions w.id) }
        rounds :=
          [{ roundNumber := 1
             tallies := formatTallies pollOptions (countVotes ballots pollOptions)
             winner := some (displayText w)
             finalVoteCount := some (votesFor ballots pollOptions w.id)
             eliminated := none }]
        eliminated := [] } := by
  have hwin := majorityWinner_complete ballots pollOptions pollOptions hid w hw
    (List.mem_map_of_mem (fun o => o.id) hw) hmaj
  have hlook := lookup_countVotes ballots pollOptions w.id
    (List.mem_map_of_mem (fun o => o.id) hw)
  rw [calculateInstantRunoff_eq_loop ballots pollOptions h2]
  obtain ⟨fuel, hfuel⟩ : ∃ fuel, pollOptions.length = fuel + 1 := ⟨pollOptions.length - 1, by omega⟩
  rw [hfuel, loop_won ballots pollOptions pollOptions [] 1 fuel w (by omega) hwin]
  simp [winnerResult, winnerRound, hlook, flattenEliminated, VoteCount.ofLookup]

/-- C4, at the specification's scenario: options A, B and ballots 3x[A], 1x[B]
give round 1 tallies A:3, B:1 and winner A after one round. -/
theorem immediate_majority_scenario :
    calculateInstantRunoff majorityBallots [optA, optB] = some
      { winner := some { id := "a", optionText := some "A", finalVoteCount := VoteCount.number 3 }
        rounds :=
          [{ roundNumber := 1, tallies := [("A", 3), ("B", 1)], winner := some "A"
             finalVoteCount := some 3, eliminated := none }]
        eliminated := [] } := by
  rw [immediate_majority majorityBallots [optA, optB] optA (by decide) (by decide) (by decide)
    (by decide)]
  decide

/-- C5: with exactly one option the engine returns that option as winner, no
rounds and no eliminations, and `finalVoteCount` is the number of ballots that
have a non-empty ranking list whose entry with the smallest rank references the
option. -/
theorem single_option_result (ballots : List Ballot) (o : PollOption) :
    calculateInstantRunoff ballots [o] = some
      { winner := some
          { id := o.id, optionText := winnerText o
            finalVoteCount := VoteCount.number (ballots.countP (ranksFirst o.id)) }
        rounds := []
        eliminated := [] } := by
  simp [calculateInstantRunoff, directCount_eq_countP]

/-- C6: with no options the engine returns `winner: null`, no rounds and no
eliminations, whatever the ballots are. -/
theorem zero_options_result (ballots : List Ballot) :
    calculateInstantRunoff ballots [] =
      some { winner := none, rounds := [], eliminated := [] } := by
  rfl

/-- C7 (the code departs from the claim): options with texts `__proto__` and `Q`
(distinct identifiers, distinct texts) and ballots 2x[p], 1x[q]. All three
ballots vote in round 1, but the assignment `formattedTallies["__proto__"] = 2`
stores nothing, so the round records the tallies `Q: 1` alone, which sum to 1. -/
theorem proto_text_loses_round_one_tally :
    calculateInstantRunoff protoMajorityBallots [optP, optQ] = some
      { winner := some
          { id := "p", optionText := some "__proto__", finalVoteCount := VoteCount.number 2 }
        rounds :=
          [{ roundNumber := 1, tallies := [("Q", 1)], winner := some "__proto__"
             finalVoteCount := some 2, eliminated := none }]
        eliminated := [] } ∧
    protoMajorityBallots.countP (ranksSomeOption [optP, optQ]) = 3 ∧
    ([optP, optQ].map (fun o => o.id)).Nodup ∧ ([optP, optQ].map displayText).Nodup := by
  decide

/-- C8: an elimination round leaves a sublist of the active list that is
strictly shorter (nothing is added, at least one option goes), and the engine
returns a result whose number of rounds is at most the number of options. -/
theorem shrink_and_termination (ballots : List Ballot) (pollOptions : List PollOption) :
    (∀ active : List PollOption, active ≠ [] →
      (removeEliminated active
        (eliminatedOptions active (countVotes ballots active))).Sublist active ∧
      (removeEliminated active
        (eliminatedOptions active (countVotes ballots active))).length < active.length) ∧
    ∃ res, calculateInstantRunoff ballots pollOptions = some res ∧
      res.rounds.length ≤ pollOptions.length := by
  refine ⟨fun active hne => ⟨removeEliminated_sublist _ _,
    removeEliminated_length_lt active _ hne⟩, ?_⟩
  obtain ⟨res, hres⟩ := calculateInstantRunoff_returns ballots pollOptions
  refine ⟨res, hres, ?_⟩
  by_cases h2 : 2 ≤ pollOptions.length
  · rw [calculateInstantRunoff_eq_loop ballots pollOptions h2] at hres
    have := loop_rounds_length ballots pollOptions _ _ _ _ _ hres
    simp only [List.length_nil] at this
    omega
  · unfold calculateInstantRunoff at hres
    split at hres
    · cases pollOptions with
      | nil => simp at hres
      | cons o rest =>
        simp only [List.head?_cons, Option.some.injEq] at hres
        rw [← hres]
        simp
    · split at hres
      · simp only [Option.some.injEq] at hres
        rw [← hres]
        simp
      · omega


/-- C9: with pairwise distinct identifiers and pairwise distinct display texts,
the engine returns a result whose `eliminated` list is the concatenation of the
rounds' eliminated lists, has no duplicates, holds only texts of input options,
and does not hold the text of the winning option when there is a winner. -/
theorem eliminated_once_winner_never (ballots : List Ballot) (pollOptions : List PollOption)
    (hid : (pollOptions.map (fun o => o.id)).Nodup)
    (htext : (pollOptions.map displayText).Nodup) :
    ∃ res, calculateInstantRunoff ballots pollOptions = some res ∧
      res.eliminated = flattenEliminated res.rounds ∧ res.eliminated.Nodup ∧
      (∀ x ∈ res.eliminated, x ∈ pollOptions.map displayText) ∧
      ∀ w, res.winner = some w →
        ∃ o ∈ pollOptions, o.id = w.id ∧ w.optionText = winnerText o ∧
          displayText o ∉ res.eliminated := by
  obtain ⟨res, hres⟩ := calculateInstantRunoff_returns ballots pollOptions
  refine ⟨res, hres, ?_⟩
  by_cases h2 : 2 ≤ pollOptions.length
  · rw [calculateInstantRunoff_eq_loop ballots pollOptions h2] at hres
    exact loop_elimGood ballots pollOptions hid htext _ _ _ _ _ hres
      ⟨List.Sublist.refl _, by simp [flattenEliminated], by simp [flattenEliminated]⟩
  · unfold calculateInstantRunoff at hres
    split at hres
    · cases pollOptions with
      | nil => simp at hres
      | cons o rest =>
        simp only [List.head?_cons, Option.some.injEq] at hres
        rw [← hres]
        refine ⟨rfl, List.nodup_nil, by simp, ?_⟩
        intro w hw
        simp only [Option.some.injEq] at hw
        exact ⟨o, by simp, by rw [← hw], by rw [← hw], by simp⟩
    · split at hres
      · simp only [Option.some.injEq] at hres
        rw [← hres]
        exact ⟨rfl, List.nodup_nil, by simp, by simp⟩
      · omega

/-- C9, at the specification's three-option scenario. -/
theorem eliminated_once_winner_never_scenario :
    ∃ res, calculateInstantRunoff scenarioBallots [optA, optB, optC] = some res ∧
      res.eliminated = flattenEliminated res.rounds ∧ res.eliminated.Nodup ∧
      (∀ x ∈ res.eliminated, x ∈ [optA, optB, optC].map displayText) ∧
      ∀ w, res.winner = some w →
        ∃ o ∈ [optA, optB, optC], o.id = w.id ∧ w.optionText = winnerText o ∧
          displayText o ∉ res.eliminated :=
  eliminated_once_winner_never scenarioBallots [optA, optB, optC] (by decide) (by decide)


/-- C10: a ballot whose `rankings` is missing or empty, inserted at any position
of the ballot list, leaves the whole result unchanged, and the engine returns a
result on the extended list. -/
theorem empty_ballot_neutral (pollOptions : List PollOption) (before after : List Ballot)
    (b : Ballot) (hb : b.rankings = none ∨ b.rankings = some []) :
    calculateInstantRunoff (before ++ b :: after) pollOptions
      = calculateInstantRunoff (before ++ after) pollOptions ∧
    ∃ res, calculateInstantRunoff (before ++ b :: after) pollOptions = some res := by
  refine ⟨?_, calculateInstantRunoff_returns _ _⟩
  apply calculateInstantRunoff_congr
  · intro active
    unfold countVotes
    rw [List.foldl_append, List.foldl_append, List.foldl_cons,
      castVote_of_no_rankings active _ b hb]
  · intro id
    unfold directCount
    rw [List.foldl_append, List.foldl_append, List.foldl_cons,
      firstChoiceIs_of_no_rankings id b hb]
    simp

/-- C10, at a concrete input: an empty ballot between the first two ballots of
the specification's three-option scenario. -/
theorem empty_ballot_neutral_scenario :
    calculateInstantRunoff
        (scenarioBallots.take 2 ++ { id := "e", rankings := some [] } :: scenarioBallots.drop 2)
        [optA, optB, optC]
      = calculateInstantRunoff (scenarioBallots.take 2 ++ scenarioBallots.drop 2)
        [optA, optB, optC] ∧
    ∃ res, calculateInstantRunoff
        (scenarioBallots.take 2 ++ { id := "e", rankings := some [] } :: scenarioBallots.drop 2)
        [optA, optB, optC] = some res :=
  empty_ballot_neutral [optA, optB, optC] (scenarioBallots.take 2) (scenarioBallots.drop 2)
    { id := "e", rankings := some [] } (Or.inr rfl)


/-- C12: the engine returns a result in which every round without a winner is an
elimination round on a sublist `active` of the options with no majority winner,
and when not all active options have the minimal count, the options eliminated
are exactly the active options with the minimal count, in active order, the
round's `eliminated` list is their display texts, and the options that stay
active are exactly those whose count is strictly greater than the minimum. -/
theorem elimination_without_full_tie (ballots : List Ballot) (pollOptions : List PollOption) :
    ∃ res, calculateInstantRunoff ballots pollOptions = some res ∧
      ∀ r ∈ res.rounds, r.winner = none →
        ∃ active, active.Sublist pollOptions ∧ 1 < active.length ∧
          majorityWinner pollOptions (countVotes ballots active) = none ∧
          r.tallies = formatTallies active (countVotes ballots active) ∧
          r.eliminated = some
            ((eliminatedOptions active (countVotes ballots active)).map displayText) ∧
          ((∃ o ∈ active, votesFor ballots active o.id ≠
              minVotes (active.map (fun o => votesFor ballots active o.id))) →
            eliminatedOptions active (countVotes ballots active) = active.filter
              (fun o => votesFor ballots active o.id ==
                minVotes (active.map (fun o => votesFor ballots active o.id))) ∧
            removeEliminated active (eliminatedOptions active (countVotes ballots active))
              = active.filter (fun o => decide
                (minVotes (active.map (fun o => votesFor ballots active o.id))
                  < votesFor ballots active o.id))) := by
  obtain ⟨res, hres⟩ := calculateInstantRunoff_returns ballots pollOptions
  refine ⟨res, hres, ?_⟩
  by_cases h2 : 2 ≤ pollOptions.length
  · rw [calculateInstantRunoff_eq_loop ballots pollOptions h2] at hres
    intro r hr hnone
    obtain ⟨active, hsub, hlen, hmaj, hr⟩ :=
      loop_elimination_rounds ballots pollOptions _ _ _ _ _ hres (List.Sublist.refl _)
        (by simp) r hr hnone
    refine ⟨active, hsub, hlen, hmaj, by rw [hr]; rfl, by rw [hr]; rfl, ?_⟩
    intro hex
    have h1 := eliminatedOptions_of_not_full_tie active (countVotes ballots active)
    have h2 := removeEliminated_of_not_full_tie active (countVotes ballots active)
    simp only [objGet0_countVotes] at h1 h2
    exact ⟨h1 hex, h2 hex⟩
  · intro r hr
    unfold calculateInstantRunoff at hres
    split at hres
    · cases pollOptions with
      | nil => simp at hres
      | cons o rest =>
        simp only [List.head?_cons, Option.some.injEq] at hres
        rw [← hres] at hr
        simp at hr
    · split at hres
      · simp only [Option.some.injEq] at hres
        rw [← hres] at hr
        simp at hr
      · omega

/-- C13 (the code departs from the claim): options with texts `Q` and `__proto__`
and ballots 1x[q], 1x[p]. Round 1 is a tie, `Q` is eliminated and the option with
text `__proto__` is left; the last round records the tallies `Q: 1` alone, and
the winner's `finalVoteCount`, read as `lastRound.tallies["__proto__"] || 0`, is
the prototype object and not the winner's tally, which is 1. -/
theorem proto_text_winner_count_is_prototype :
    calculateInstantRunoff protoTieBallots [optQ, optP] = some
      { winner := some
          { id := "p", optionText := some "__proto__"
            finalVoteCount := VoteCount.inherited "__proto__" }
        rounds :=
          [{ roundNumber := 1, tallies := [("Q", 1)], winner := none
             finalVoteCount := none, eliminated := some ["Q"] }]
        eliminated := ["Q"] } ∧
    votesFor protoTieBallots [optQ, optP] "p" = 1 ∧
    ([optQ, optP].map (fun o => o.id)).Nodup ∧ ([optQ, optP].map displayText).Nodup := by
  decide

/-- C15: with a non-empty option list of pairwise distinct identifiers the engine
returns a result whose winner is present and is one of the input options, and an
elimination round on two or more of the options never leaves the active list
empty. -/
theorem winner_exists (ballots : List Ballot) (pollOptions : List PollOption)
    (hne : pollOptions ≠ []) (hid : (pollOptions.map (fun o => o.id)).Nodup) :
    (∃ res w o, calculateInstantRunoff ballots pollOptions = some res ∧
      res.winner = some w ∧ o ∈ pollOptions ∧ w.id = o.id ∧ w.optionText = winnerText o) ∧
    (∀ active : List PollOption, active.Sublist pollOptions → 1 < active.length →
      removeEliminated active (eliminatedOptions active (countVotes ballots active)) ≠ []) := by
  constructor
  · by_cases h2 : 2 ≤ pollOptions.length
    · obtain ⟨res, hres⟩ := calculateInstantRunoff_returns ballots pollOptions
      have hloop := hres
      rw [calculateInstantRunoff_eq_loop ballots pollOptions h2] at hloop
      obtain ⟨last, _, hcase⟩ := loop_last_round ballots pollOptions hid _ _ _ _ _ hloop
        ⟨List.Sublist.refl _, Or.inl (by omega)⟩
      rcases hcase with ⟨_, w, _, hw, _, _, _, _, _, hwin⟩ | ⟨active, o, helim, hsurv, hwin⟩
      · exact ⟨res, _, w, hres, hwin, hw, rfl, rfl⟩
      · have ho : o ∈ active := (removeEliminated_sublist _ _).subset (by rw [hsurv]; simp)
        exact ⟨res, _, o, hres, hwin, helim.1.subset ho, rfl, rfl⟩
    · match pollOptions, hne, h2 with
      | [o], _, _ =>
        exact ⟨_, _, o, rfl, rfl, by simp, rfl, rfl⟩
      | _ :: _ :: _, _, h2 => simp at h2
  · intro active hsub hlen
    exact removeEliminated_ne_nil active _ ((hsub.map (fun o => o.id)).nodup hid) hlen

/-- C15, at the specification's three-option scenario. -/
theorem winner_exists_scenario :
    (∃ res w o, calculateInstantRunoff scenarioBallots [optA, optB, optC] = some res ∧
      res.winner = some w ∧ o ∈ [optA, optB, optC] ∧ w.id = o.id ∧
      w.optionText = winnerText o) ∧
    (∀ active : List PollOption, active.Sublist [optA, optB, optC] → 1 < active.length →
      removeEliminated active
        (eliminatedOptions active (countVotes scenarioBallots active)) ≠ []) :=
  winner_exists scenarioBallots [optA, optB, optC] (by decide) (by decide)

/-- C16 (the code departs from the claim): options with texts `Q` and `__proto__`
and ballots 2x[q], 2x[p]. The last round records the tally `Q: 2`, and the
winner's `finalVoteCount` is the prototype object: it is not a number, so it is
not a count that is at least 2. -/
theorem proto_text_winner_count_not_a_number :
    ∃ res last w, calculateInstantRunoff protoDoubleTieBallots [optQ, optP] = some res ∧
      res.rounds.getLast? = some last ∧ res.winner = some w ∧
      last.tallies = [("Q", 2)] ∧
      w.finalVoteCount = VoteCount.inherited "__proto__" ∧
      (∀ v, w.finalVoteCount ≠ VoteCount.number v) ∧
      ([optQ, optP].map (fun o => o.id)).Nodup ∧ ([optQ, optP].map displayText).Nodup := by
  refine ⟨{ winner := some
              { id := "p", optionText := some "__proto__"
                finalVoteCount := VoteCount.inherited "__proto__" }
            rounds :=
              [{ roundNumber := 1, tallies := [("Q", 2)], winner := none
                 finalVoteCount := none, eliminated := some ["Q"] }]
            eliminated := ["Q"] },
    { roundNumber := 1, tallies := [("Q", 2)], winner := none
      finalVoteCount := none, eliminated := some ["Q"] },
    { id := "p", optionText := some "__proto__"
      finalVoteCount := VoteCount.inherited "__proto__" },
    by decide, rfl, rfl, rfl, rfl, ?_, by decide, by decide⟩
  intro v h
  simp at h

/-- C17: permuting the ballot list leaves the whole result unchanged, and the
engine returns a result. -/
theorem ballot_anonymity (ballots ballots' : List Ballot) (pollOptions : List PollOption)
    (hperm : ballots.Perm ballots') :
    calculateInstantRunoff ballots pollOptions = calculateInstantRunoff ballots' pollOptions ∧
    ∃ res, calculateInstantRunoff ballots pollOptions = some res := by
  refine ⟨?_, calculateInstantRunoff_returns _ _⟩
  apply calculateInstantRunoff_congr
  · intro active
    apply countVotes_congr_votesFor
    intro k
    exact hperm.countP_eq _
  · intro id
    rw [directCount_eq_countP, directCount_eq_countP]
    exact hperm.countP_eq _

/-- C17, at the specification's three-option scenario with its ballots reversed. -/
theorem ballot_anonymity_scenario :
    calculateInstantRunoff scenarioBallots [optA, optB, optC]
      = calculateInstantRunoff scenarioBallots.reverse [optA, optB, optC] ∧
    ∃ res, calculateInstantRunoff scenarioBallots [optA, optB, optC] = some res :=
  ballot_anonymity scenarioBallots scenarioBallots.reverse [optA, optB, optC]
    (List.reverse_perm scenarioBallots).symm


/-- C11: when the ballots of one list are those of another with ranks replaced
through maps that are strictly increasing on each ballot's (pairwise distinct)
ranks and with rankings listed in any order, both lists give the same result,
and the engine returns a result. -/
theorem relative_rank_order (ballots ballots' : List Ballot) (pollOptions : List PollOption)
    (h : List.Forall₂ SameRankOrder ballots ballots') :
    calculateInstantRunoff ballots pollOptions = calculateInstantRunoff ballots' pollOptions ∧
    ∃ res, calculateInstantRunoff ballots pollOptions = some res := by
  refine ⟨?_, calculateInstantRunoff_returns _ _⟩
  apply calculateInstantRunoff_congr
  · intro active
    apply countVotes_congr_forall₂
    refine h.imp ?_
    intro b b' hb
    rw [firstActive_eq_find_sortedIds, firstActive_eq_find_sortedIds,
      sortedIds_of_sameRankOrder b b' hb]
  · intro id
    apply directCount_congr_forall₂
    refine h.imp ?_
    intro b b' hb
    rw [firstChoiceIs_eq_head_sortedIds, firstChoiceIs_eq_head_sortedIds,
      sortedIds_of_sameRankOrder b b' hb]

/-- C11, at a concrete input: ranks 1, 2, 3 replaced by 10, 20, 35 and the
rankings listed in another order. -/
theorem relative_rank_order_example :
    calculateInstantRunoff plainRanksBallots [optA, optB, optC]
      = calculateInstantRunoff spreadRanksBallots [optA, optB, optC] ∧
    ∃ res, calculateInstantRunoff plainRanksBallots [optA, optB, optC] = some res :=
  relative_rank_order plainRanksBallots spreadRanksBallots [optA, optB, optC]
    (List.Forall₂.cons
      (show (_ : Prop) ∧ _ from ⟨by decide, spreadRanks, by decide, by decide⟩)
      List.Forall₂.nil)

/-- C14: with two or more options, deleting from every ballot the rankings that
reference none of the options leaves the result unchanged; a ballot all of whose
rankings reference unknown options can be replaced by a ballot with an empty
ranking list without changing the result; and every key of the tally dictionary
of a round is the identifier of an active option. -/
theorem unknown_rankings_ignored (ballots : List Ballot) (pollOptions : List PollOption)
    (h2 : 2 ≤ pollOptions.length) :
    calculateInstantRunoff (ballots.map (stripUnknown pollOptions)) pollOptions
      = calculateInstantRunoff ballots pollOptions ∧
    (∀ (before after : List Ballot) (b : Ballot),
      (∀ rs, b.rankings = some rs → ∀ r ∈ rs, knownOption pollOptions r = false) →
      calculateInstantRunoff (before ++ b :: after) pollOptions
        = calculateInstantRunoff (before ++ { id := b.id, rankings := some [] } :: after)
          pollOptions) ∧
    (∀ (active : List PollOption) (k : String),
      k ∈ (countVotes ballots active).map Prod.fst → k ∈ active.map (fun o => o.id)) := by
  refine ⟨?_, ?_, fun active k hk => (mem_keys_countVotes ballots active k).mp hk⟩
  · apply calculateInstantRunoff_congr_sub _ _ _ h2
    intro active hsub
    apply countVotes_congr_votesFor
    intro k
    unfold votesFor
    rw [List.countP_map]
    congr 1
    funext b
    simp only [Function.comp, firstActive_stripUnknown pollOptions active hsub b]
  · intro before after b hb
    apply calculateInstantRunoff_congr_sub _ _ _ h2
    intro active hsub
    have h1 : firstActive active b = none := by
      rw [← firstActive_stripUnknown pollOptions active hsub b]
      exact firstActive_of_no_rankings active _ (stripUnknown_of_all_unknown pollOptions b hb)
    have h0 : firstActive active { id := b.id, rankings := some [] } = none :=
      firstActive_of_no_rankings active _ (Or.inr rfl)
    unfold countVotes
    rw [List.foldl_append, List.foldl_append, List.foldl_cons, List.foldl_cons]
    simp only [castVote, h1, h0]

/-- C14, at a concrete input: the specification's three-option scenario, whose
ballots rank only known options. -/
theorem unknown_rankings_ignored_scenario :
    calculateInstantRunoff (scenarioBallots.map (stripUnknown [optA, optB, optC]))
        [optA, optB, optC]
      = calculateInstantRunoff scenarioBallots [optA, optB, optC] ∧
    (∀ (before after : List Ballot) (b : Ballot),
      (∀ rs, b.rankings = some rs → ∀ r ∈ rs, knownOption [optA, optB, optC] r = false) →
      calculateInstantRunoff (before ++ b :: after) [optA, optB, optC]
        = calculateInstantRunoff (before ++ { id := b.id, rankings := some [] } :: after)
          [optA, optB, optC]) ∧
    (∀ (active : List PollOption) (k : String),
      k ∈ (countVotes scenarioBallots active).map Prod.fst → k ∈ active.map (fun o => o.id)) :=
  unknown_rankings_ignored scenarioBallots [optA, optB, optC] (by decide)

/-- C18 as stated fails: two options with distinct identifiers and the same text
`T` share one entry of the recorded tallies, which holds the count of the second
one; the round has one entry for two active options and the entries sum to 1
while 3 votes were tallied. -/
theorem same_text_collapses_tallies :
    ∃ res r, calculateInstantRunoff sameTextBallots [optX, optY] = some res ∧
      res.rounds = [r] ∧ r.tallies = [("T", 1)] ∧
      r.tallies.length ≠ [optX, optY].length ∧
      (r.tallies.map Prod.snd).sum ≠ totalVotes (countVotes sameTextBallots [optX, optY]) ∧
      ([optX, optY].map (fun o => o.id)).Nodup :=
  ⟨{ winner := some { id := "x", optionText := some "T", finalVoteCount := VoteCount.number 2 }
     rounds :=
       [{ roundNumber := 1, tallies := [("T", 1)], winner := some "T"
          finalVoteCount := some 2, eliminated := none }]
     eliminated := [] },
   { roundNumber := 1, tallies := [("T", 1)], winner := some "T"
     finalVoteCount := some 2, eliminated := none },
   by decide, rfl, rfl, by decide, by decide, by decide⟩

/-- C18, amended: with two or more options of pairwise distinct identifiers and
pairwise distinct display texts, none of them `__proto__`, every recorded round
is the tally of a sublist `active` of the options, its tallies have exactly one
entry for each active option, holding the number of ballots voting for that
option, and the entries sum to the total number of votes tallied in the round. -/
theorem text_keyed_tallies_faithful (ballots : List Ballot) (pollOptions : List PollOption)
    (h2 : 2 ≤ pollOptions.length) (hid : (pollOptions.map (fun o => o.id)).Nodup)
    (htext : (pollOptions.map displayText).Nodup)
    (hproto : "__proto__" ∉ pollOptions.map displayText) :
    ∃ res, calculateInstantRunoff ballots pollOptions = some res ∧
      ∀ r ∈ res.rounds, ∃ active : List PollOption, active.Sublist pollOptions ∧
        r.tallies.Perm
          (active.map (fun o => (displayText o, votesFor ballots active o.id))) ∧
        (r.tallies.map Prod.snd).sum = totalVotes (countVotes ballots active) ∧
        totalVotes (countVotes ballots active) = votersCount ballots active := by
  obtain ⟨res, hres⟩ := calculateInstantRunoff_returns ballots pollOptions
  refine ⟨res, hres, ?_⟩
  rw [calculateInstantRunoff_eq_loop ballots pollOptions h2] at hres
  have key : ∀ (r : Round) (active : List PollOption), active.Sublist pollOptions →
      r.tallies = formatTallies active (countVotes ballots active) →
      r.tallies.Perm
        (active.map (fun o => (displayText o, votesFor ballots active o.id))) ∧
      (r.tallies.map Prod.snd).sum = totalVotes (countVotes ballots active) ∧
      totalVotes (countVotes ballots active) = votersCount ballots active := by
    intro r active hsub htal
    have hnd := (hsub.map displayText).nodup htext
    have hndid := (hsub.map (fun o => o.id)).nodup hid
    have hnp := not_proto_of_sublist pollOptions active hsub hproto
    refine ⟨?_, ?_, totalVotes_countVotes ballots active⟩
    · rw [htal]
      have hperm := formatTallies_perm active (countVotes ballots active) hnd hnp
      simp only [objGet0_countVotes] at hperm
      exact hperm
    · rw [htal, sum_formatTallies_countVotes ballots active hndid hnd hnp,
        totalVotes_countVotes]
  intro r hr
  cases hwin : r.winner with
  | none =>
    obtain ⟨active, hsub, _, _, hr'⟩ :=
      loop_elimination_rounds ballots pollOptions _ _ _ _ _ hres (List.Sublist.refl _)
        (by simp) r hr hwin
    exact ⟨active, hsub, key r active hsub (by rw [hr']; rfl)⟩
  | some wt =>
    obtain ⟨active, _, hsub, _, _, htal, _⟩ :=
      loop_winner_rounds ballots pollOptions _ _ _ _ _ hres (List.Sublist.refl _)
        (by simp) r hr (by rw [hwin]; simp)
    exact ⟨active, hsub, key r active hsub htal⟩

/-- C18 amended, at the specification's three-option scenario. -/
theorem text_keyed_tallies_faithful_scenario :
    ∃ res, calculateInstantRunoff scenarioBallots [optA, optB, optC] = some res ∧
      ∀ r ∈ res.rounds, ∃ active : List PollOption, active.Sublist [optA, optB, optC] ∧
        r.tallies.Perm
          (active.map (fun o => (displayText o, votesFor scenarioBallots active o.id))) ∧
        (r.tallies.map Prod.snd).sum = totalVotes (countVotes scenarioBallots active) ∧
        totalVotes (countVotes scenarioBallots active) = votersCount scenarioBallots active :=
  text_keyed_tallies_faithful scenarioBallots [optA, optB, optC] (by decide) (by decide)
    (by decide) (by decide)

/-- C19 as stated fails: with the single option `a` and one ballot that ranks an
unknown option first and `a` second, the reported `finalVoteCount` is 0, while
the main-loop counting rule with active list `[a]` gives `a` one vote. -/
theorem single_option_count_reads_first_entry_only :
    calculateInstantRunoff unknownFirstBallots [optA] = some
      { winner := some { id := "a", optionText := some "A", finalVoteCount := VoteCount.number 0 }
        rounds := []
        eliminated := [] } ∧
    countVotes unknownFirstBallots [optA] = [("a", 1)] ∧
    votesFor unknownFirstBallots [optA] "a" = 1 := by
  decide

/-- C19, amended: when every ranking of every ballot references the single
option `o`, the reported `finalVoteCount` is the number of ballots voting for `o`
under the main-loop counting rule with active list `[o]`, which is the count the
tally dictionary of that round holds for `o`. -/
theorem single_option_agrees_with_tally (ballots : List Ballot) (o : PollOption)
    (hknown : ∀ b ∈ ballots, ∀ rs, b.rankings = some rs → ∀ r ∈ rs, r.pollOptionId = o.id) :
    calculateInstantRunoff ballots [o] = some
      { winner := some
          { id := o.id, optionText := winnerText o
            finalVoteCount := VoteCount.number (votesFor ballots [o] o.id) }
        rounds := []
        eliminated := [] } ∧
    (countVotes ballots [o]).lookup o.id = some (votesFor ballots [o] o.id) := by
  refine ⟨?_, lookup_countVotes ballots [o] o.id (by simp)⟩
  have hcount : directCount ballots o.id = votesFor ballots [o] o.id := by
    rw [directCount_eq_countP]
    unfold votesFor
    apply List.countP_congr
    intro b hb
    rw [← firstChoiceIs_eq_ranksFirst, firstChoiceIs_eq_head_sortedIds,
      firstActive_eq_find_sortedIds]
    have hall : ∀ k ∈ sortedIds b, k = o.id := by
      intro k hk
      unfold sortedIds at hk
      cases hr : b.rankings with
      | none => simp [hr] at hk
      | some rs =>
        simp only [hr] at hk
        obtain ⟨r, hrmem, hrk⟩ := List.mem_map.mp hk
        rw [← hrk]
        exact hknown b hb rs hr r ((perm_sortedRankings rs).mem_iff.mp hrmem)
    cases hids : sortedIds b with
    | nil => simp
    | cons k rest =>
      have hk : k = o.id := hall k (by rw [hids]; simp)
      subst hk
      simp
  simp [calculateInstantRunoff, hcount]

/-- C19 amended, at two ballots that rank only the single option `a`. -/
theorem single_option_agrees_with_tally_example :
    calculateInstantRunoff [mkBallot "1" ["a"], mkBallot "2" ["a"]] [optA] = some
      { winner := some
          { id := optA.id, optionText := winnerText optA
            finalVoteCount := VoteCount.number (votesFor [mkBallot "1" ["a"], mkBallot "2" ["a"]] [optA] optA.id) }
        rounds := []
        eliminated := [] } ∧
    (countVotes [mkBallot "1" ["a"], mkBallot "2" ["a"]] [optA]).lookup optA.id
      = some (votesFor [mkBallot "1" ["a"], mkBallot "2" ["a"]] [optA] optA.id) :=
  single_option_agrees_with_tally [mkBallot "1" ["a"], mkBallot "2" ["a"]] optA (by decide)

end InstantRunoff
